import Mathlib

/-!
Verification of the tag-hierarchy grouping engine of the Magiofiles plugin
(source: src/main.ts).  JavaScript strings are modeled as lists of characters
(abbrev Str); JavaScript Sets are modeled as insertion-ordered duplicate-free
lists (setAdd); JavaScript Maps are modeled as insertion-ordered association
lists (assocUpdate keeps an existing key in place and appends a new key at the
end, as a JS Map does).  String.prototype.trim is modeled by jsTrim over a
whitespace predicate, and localeCompare is modeled as code-point lexicographic
comparison.
-/

/-- Characters of a JavaScript string. -/
abbrev Str := List Char

/-- Model of JavaScript Set.prototype.add on an insertion-ordered list:
adding an element that is already present is a no-op, otherwise it is
appended at the end. -/
def setAdd (l : List Str) (f : Str) : List Str :=
  if f ∈ l then l else l ++ [f]

/-- Whitespace characters removed by JavaScript String.prototype.trim
(the common ASCII ones). -/
def isJsWhitespace (c : Char) : Bool :=
  (c == ' ') || (c == '\t') || (c == '\n') || (c == '\r') || (c == '\x0b') || (c == '\x0c')

/-- Model of JavaScript String.prototype.trim: drop whitespace from both ends. -/
def jsTrim (s : Str) : Str :=
  ((s.dropWhile isJsWhitespace).reverse.dropWhile isJsWhitespace).reverse

/-- Model of JavaScript String.prototype.startsWith. -/
def jsStartsWith (s pre : Str) : Bool :=
  pre.isPrefixOf s

/-- Embedding of normalizeTag (main.ts lines 24-28):
trim, return the empty string if blank, otherwise prefix the marker
character unless already present. -/
def normalizeTag (tag : Str) : Str :=
  let t := jsTrim tag
  if t = [] then []
  else if jsStartsWith t (String.toList ("#")) then t else String.toList ("#") ++ t

/-- Embedding of parseTagsInput (main.ts lines 30-35): split on commas,
normalize each piece, drop falsy (empty) results. -/
def parseTagsInput (input : Str) : List Str :=
  ((input.splitOn ',').map normalizeTag).filter (fun s => !s.isEmpty)

/-- Embedding of stripHash (main.ts lines 795-797). -/
def stripHash (tag : Str) : Str :=
  if jsStartsWith tag (String.toList ("#")) then tag.drop 1 else tag

/-- Embedding of tagMatchesAny (main.ts lines 744-752): return the first
pattern w of wanted such that some tag t of the set equals w or starts
with w followed by the path separator, null (none) otherwise. -/
def tagMatchesAny (tagSet : List Str) (wanted : List Str) : Option Str :=
  wanted.find? (fun w =>
    tagSet.any (fun t => t == w || jsStartsWith t (w ++ String.toList ("/"))))

/-- Embedding of the Level record (main.ts line 5). -/
structure Level where
  name : Str
  tags : List Str
deriving DecidableEq

/-- Embedding of the ViewCfg record (main.ts line 6). -/
structure ViewCfg where
  id : Str
  name : Str
  levels : List Level
deriving DecidableEq

/-- Embedding of the sortMode field (main.ts line 11). -/
inductive SortMode where
  | alpha
  | alphaDesc
  | count
deriving DecidableEq

/-- Embedding of the MagiofilesSettings record (main.ts lines 8-14). -/
structure MagiofilesSettings where
  views : List ViewCfg
  activeViewId : Option Str
  sortMode : SortMode
  showFileIcons : Bool
  showCounts : Bool
deriving DecidableEq

/-- Embedding of the GroupNode record (main.ts lines 710-715); files are
identified by their vault path.  The optional children map and files set of
the source are initialized before every use, so they are modeled as always
present (empty when absent). -/
inductive GroupNode where
  | mk (name : Str) (level : Int) (children : List (Str × GroupNode)) (files : List Str)

/-- Children association list of a node. -/
def GroupNode.children : GroupNode → List (Str × GroupNode)
  | .mk _ _ cs _ => cs

/-- Own file set of a node. -/
def GroupNode.files : GroupNode → List Str
  | .mk _ _ _ fs => fs

mutual

/-- Embedding of countFiles (main.ts lines 799-804). -/
def countFiles : GroupNode → Nat
  | .mk _ _ cs fs => fs.length + countFilesChildren cs

/-- Loop of countFiles over the children map. -/
def countFilesChildren : List (Str × GroupNode) → Nat
  | [] => 0
  | p :: rest => countFiles p.2 + countFilesChildren rest

end

mutual

/-- All file entries stored anywhere in a tree, in traversal order. -/
def treeFiles : GroupNode → List Str
  | .mk _ _ cs fs => fs ++ treeFilesChildren cs

/-- All file entries stored anywhere below a children map. -/
def treeFilesChildren : List (Str × GroupNode) → List Str
  | [] => []
  | p :: rest => treeFiles p.2 ++ treeFilesChildren rest

end

/-- Number of occurrences of a file in a tree (a file "appears once" in a
tree exactly when occ is 1). -/
def occ (f : Str) (t : GroupNode) : Nat :=
  (treeFiles t).count f

/-- Number of occurrences of a file below a children map. -/
def occChildren (f : Str) (cs : List (Str × GroupNode)) : Nat :=
  (treeFilesChildren cs).count f

/-- Model of the JS Map get-or-insert-then-modify pattern on an
insertion-ordered association list: if the key is present its value is
updated in place by g, otherwise (key, g dflt) is appended at the end. -/
def assocUpdate (cs : List (Str × GroupNode)) (key : Str) (g : GroupNode → GroupNode)
    (dflt : GroupNode) : List (Str × GroupNode) :=
  match cs with
  | [] => [(key, g dflt)]
  | (k, c) :: tail =>
    if k = key then (k, g c) :: tail else (k, c) :: assocUpdate tail key g dflt

/-- Association-list lookup, the model of JS Map.prototype.get. -/
def childNode? (cs : List (Str × GroupNode)) (key : Str) : Option GroupNode :=
  match cs with
  | [] => none
  | (k, c) :: tail => if k = key then some c else childNode? tail key

/-- Add a file to a node's own file set (bucket.files.add(f)). -/
def nodeAddFile : GroupNode → Str → GroupNode
  | .mk n l cs fs, f => .mk n l cs (setAdd fs f)

/-- Get-or-create the bucket at the given key (with a fresh empty node at
the given level index as the default) and add the file to its file set;
this is the bucket insertion pattern of propagateLevel
(main.ts lines 769-775 and 782-788). -/
def bucketAdd (cs : List (Str × GroupNode)) (key : Str) (li : Int) (f : Str) :
    List (Str × GroupNode) :=
  assocUpdate cs key (fun c => nodeAddFile c f) (.mk key li [] [])

/-- Fixed label of the synthesized catch-all bucket
(main.ts line 782: const key = "Others"). -/
def othersLabel : Str := String.toList ("Others")

/-- Embedding of the per-file loop of propagateLevel (main.ts lines 765-779):
walk the node's files in order; a file whose tagMatchesAny result is truthy
(non-null and non-empty, per JS truthiness of the returned string) is added
to the bucket labeled by the stripped match; the others are collected in the
remaining list in order. -/
def splitGo (ft : Str → List Str) (lt : List Str) (li : Int) :
    List Str → List (Str × GroupNode) → List Str → List (Str × GroupNode) × List Str
  | [], cs, rem => (cs, rem)
  | f :: todo, cs, rem =>
    match tagMatchesAny (ft f) lt with
    | some w =>
      if w = [] then splitGo ft lt li todo cs (rem ++ [f])
      else splitGo ft lt li todo (bucketAdd cs (stripHash w) li f) rem
    | none => splitGo ft lt li todo cs (rem ++ [f])

/-- Embedding of the remaining-files step of propagateLevel
(main.ts lines 780-789): if any files matched no pattern, put each of them
into the catch-all bucket. -/
def finishSplit (li : Int) (cs : List (Str × GroupNode)) (rem : List Str) :
    List (Str × GroupNode) :=
  if rem = [] then cs else rem.foldl (fun acc f => bucketAdd acc othersLabel li f) cs

mutual

/-- Embedding of propagateLevel (main.ts lines 754-793).  The source walks
the tree with an explicit stack, splitting every node that currently holds
files (whose children are then not revisited in this pass) and descending
into the children of file-less nodes; this recursion computes the same
tree. -/
def propagateLevel (ft : Str → List Str) (lt : List Str) (li : Int) : GroupNode → GroupNode
  | .mk n lv cs fs =>
    if fs = [] then .mk n lv (propagateChildren ft lt li cs) fs
    else
      let s := splitGo ft lt li fs cs []
      .mk n lv (finishSplit li s.1 s.2) []

/-- Descent of propagateLevel into the children of a file-less node. -/
def propagateChildren (ft : Str → List Str) (lt : List Str) (li : Int) :
    List (Str × GroupNode) → List (Str × GroupNode)
  | [] => []
  | (k, c) :: rest => (k, propagateLevel ft lt li c) :: propagateChildren ft lt li rest

end

/-- Embedding of the folder walk of addFileToFolderTree
(main.ts lines 810-821): descend along the folder segments, creating
missing folder nodes, and add the file to the final node's file set. -/
def insertFolderPath (f : Str) : List Str → GroupNode → GroupNode
  | [], node => nodeAddFile node f
  | seg :: rest, .mk n l cs fs =>
    .mk n l (assocUpdate cs seg (insertFolderPath f rest) (.mk seg (l + 1) [] [])) fs

/-- Embedding of addFileToFolderTree (main.ts lines 806-822): split the
path into segments, drop the final file-name segment, and insert the file
at the node reached along the folder segments. -/
def addFileToFolderTree (root : GroupNode) (fullPath : Str) : GroupNode :=
  insertFolderPath fullPath (fullPath.splitOn '/').dropLast root

/-- Code-point lexicographic comparison; the model of
String.prototype.localeCompare as used for label ordering
(a result of true means the first label sorts no later than the second). -/
def lexLe : Str → Str → Bool
  | [], _ => true
  | _ :: _, [] => false
  | a :: s, b :: t => if a = b then lexLe s t else decide (a < b)

/-- Comparator relation of the count sort mode (main.ts lines 827-832):
larger counts first, ties by ascending label. -/
def cmpCountLe (a b : Str × GroupNode) : Bool :=
  if countFiles a.2 = countFiles b.2 then lexLe a.1 b.1
  else decide (countFiles b.2 < countFiles a.2)

/-- Embedding of getSortedEntries (main.ts lines 824-839).  JS
Array.prototype.sort is a stable sort by the given comparator, modeled by
mergeSort with the relation "comparator result is non-positive". -/
def getSortedEntries (cs : List (Str × GroupNode)) (mode : SortMode) :
    List (Str × GroupNode) :=
  match mode with
  | .count => cs.mergeSort cmpCountLe
  | .alphaDesc => cs.mergeSort (fun a b => lexLe b.1 a.1)
  | .alpha => cs.mergeSort (fun a b => lexLe a.1 b.1)

/-- Embedding of the matched-selection loop of renderTree
(main.ts lines 532-539): a file is matched when some configured level has a
truthy tagMatchesAny result on the file's tags. -/
def isMatched (levels : List Level) (ft : Str → List Str) (f : Str) : Bool :=
  levels.any (fun lvl =>
    match tagMatchesAny (ft f) lvl.tags with
    | some w => !w.isEmpty
    | none => false)

/-- The matched set of renderTree (main.ts lines 532-539), built in file
order with Set semantics. -/
def buildMatched (mdFiles : List Str) (ft : Str → List Str) (levels : List Level) :
    List Str :=
  mdFiles.foldl (fun acc f => if isMatched levels ft f then setAdd acc f else acc) []

/-- Label of the two root nodes (main.ts lines 542 and 549). -/
def rootLabel : Str := String.toList ("root")

/-- Embedding of the Tag Tree construction of renderTree
(main.ts lines 541-546): root node holding the matched set, then one
propagateLevel pass per configured level in order. -/
def buildTagTree (matched : List Str) (ft : Str → List Str) (levels : List Level) :
    GroupNode :=
  levels.enum.foldl (fun root p => propagateLevel ft p.2.tags (Int.ofNat p.1) root)
    (.mk rootLabel (-1) [] matched)

/-- Embedding of the Folder Tree construction of renderTree
(main.ts lines 548-553): every file of the vault that is not in the matched
set is inserted at its folder path. -/
def buildFolderTree (allFiles : List Str) (matched : List Str) : GroupNode :=
  allFiles.foldl (fun root f => if f ∈ matched then root else addFileToFolderTree root f)
    (.mk rootLabel (-1) [] [])

/-- The pair of trees built by one render pass (main.ts lines 528-553). -/
def buildTrees (allFiles mdFiles : List Str) (ft : Str → List Str) (levels : List Level) :
    GroupNode × GroupNode :=
  let matched := buildMatched mdFiles ft levels
  (buildTagTree matched ft levels, buildFolderTree allFiles matched)

/-- Embedding of the frontmatter tags field as seen by collectTagsForFile:
the dynamic value cache.frontmatter?.tags is either absent (undefined), a
string, an array (whose elements the source coerces with String(t), modeled
as already-coerced strings), or any other malformed value. -/
inductive FmField where
  | missing
  | str (s : Str)
  | arr (vs : List Str)
  | other

/-- Embedding of collectTagsForFile (main.ts lines 717-729): inline tags
are added to the set verbatim, then a string frontmatter tags field is
added normalized, an array field has each element added normalized, and a
missing or malformed field adds nothing. -/
def collectTagsForFile (inline : List Str) (fm : FmField) : List Str :=
  let out := inline.foldl setAdd []
  match fm with
  | .missing => out
  | .other => out
  | .str s => setAdd out (normalizeTag s)
  | .arr vs => vs.foldl (fun acc t => setAdd acc (normalizeTag t)) out

/-- Embedding of the view Delete button handler (main.ts lines 463-474):
deleting when only one view remains is rejected with a notice and changes
nothing; otherwise the view is filtered out by id and, if it was active,
the active id is remapped to the first remaining view.  Reading the first
element of an empty remaining list would throw in JS, modeled as none. -/
def deleteView (s : MagiofilesSettings) (vid : Str) : Option MagiofilesSettings :=
  if s.views.length = 1 then some s
  else if s.activeViewId = some vid then
    match s.views.filter (fun v => v.id ≠ vid) with
    | [] => none
    | v :: _ =>
      some { s with views := s.views.filter (fun v => v.id ≠ vid), activeViewId := some v.id }
  else some { s with views := s.views.filter (fun v => v.id ≠ vid) }

mutual

/-- Decidable check of the terminal-bucket invariant: every node with a
non-empty children map has an empty own file set. -/
def leafOnly : GroupNode → Bool
  | .mk _ _ cs fs => (cs.isEmpty || fs.isEmpty) && leafOnlyChildren cs

/-- leafOnly over a children map. -/
def leafOnlyChildren : List (Str × GroupNode) → Bool
  | [] => true
  | p :: rest => leafOnly p.2 && leafOnlyChildren rest

end

/-- Tags contributed by the frontmatter field per the classifier contract:
a string field contributes its normalized form, an array field contributes
the normalized form of each element, anything else contributes nothing. -/
def fmContrib : FmField → List Str
  | .missing => []
  | .other => []
  | .str s => [normalizeTag s]
  | .arr vs => vs.map normalizeTag

/-- Concrete two-view settings used as the deleteView witness input. -/
def testSettings : MagiofilesSettings :=
  { views :=
      [ { id := String.toList ("va"), name := String.toList ("A"), levels := [] },
        { id := String.toList ("vb"), name := String.toList ("B"), levels := [] } ],
    activeViewId := some (String.toList ("va")),
    sortMode := SortMode.alpha,
    showFileIcons := true,
    showCounts := true }

/-- Concrete vault of the spec's concrete scenario: A.md and B.md carry
project tags, C.md carries none. -/
def sampleFiles : List Str :=
  [String.toList ("A.md"), String.toList ("B.md"), String.toList ("C.md")]

/-- Tag sets of the concrete scenario files. -/
def sampleTags : Str → List Str := fun f =>
  if f = String.toList ("A.md") then [String.toList ("#project/work")]
  else if f = String.toList ("B.md") then [String.toList ("#project/home")]
  else []

/-- The single level of the concrete scenario. -/
def sampleLevels : List Level :=
  [{ name := String.toList ("Project"), tags := [String.toList ("#project")] }]

/-- All nodes of a children map are childless buckets. -/
def flatChildren (cs : List (Str × GroupNode)) : Prop :=
  ∀ p ∈ cs, p.2.children = []

/-- Vault with a folder that holds both a file and a subfolder. -/
def nestedFiles : List Str := [String.toList ("a/b.md"), String.toList ("a/c/d.md")]

/-- Tag lookup returning no tags for any file. -/
def noTags : Str → List Str := fun _ => []

/-- JS truthiness of the string-or-null result of tagMatchesAny: truthy
exactly when non-null and non-empty. -/
def optTruthy : Option Str → Bool
  | some s => !s.isEmpty
  | none => false

/-- A file is a member of the bucket at a given key of a children map. -/
def memBucket (cs : List (Str × GroupNode)) (k : Str) (f : Str) : Prop :=
  ∃ b, childNode? cs k = some b ∧ f ∈ b.files

/-- Tag lookup where every file carries both the #a and the #b tag. -/
def multiTags : Str → List Str := fun _ => [String.toList ("#a"), String.toList ("#b")]

/-- Tag sets of the catch-all merge scenario: f1 matches level 0 only,
f2 matches level 0 and carries the tag #Others. -/
def mergeTags : Str → List Str := fun f =>
  if f = String.toList ("f1") then [String.toList ("#a")]
  else if f = String.toList ("f2") then [String.toList ("#a"), String.toList ("#Others")]
  else []

/-- Levels of the catch-all merge scenario. -/
def mergeLevels : List Level :=
  [{ name := [], tags := [String.toList ("#a")] },
   { name := [], tags := [String.toList ("#Others")] }]

/-- Tag Tree built in the catch-all merge scenario. -/
def mergeTree : GroupNode :=
  (buildTrees [String.toList ("f1"), String.toList ("f2")]
    [String.toList ("f1"), String.toList ("f2")] mergeTags mergeLevels).1

/-- Structural induction principle for GroupNode giving the inductive
hypothesis for every child in the children association list. -/
theorem GroupNode.ind (motive : GroupNode → Prop)
    (h : ∀ n l cs fs, (∀ p ∈ cs, motive p.2) → motive (GroupNode.mk n l cs fs)) :
    ∀ t, motive t
  | .mk n l cs fs => h n l cs fs (fun p hp => GroupNode.ind motive h p.2)
termination_by t => sizeOf t
decreasing_by
  have h1 : sizeOf p < sizeOf cs := List.sizeOf_lt_of_mem hp
  obtain ⟨a, b⟩ := p
  simp only [Prod.mk.sizeOf_spec] at h1 ⊢
  simp only [GroupNode.mk.sizeOf_spec]
  omega

section Helpers

/-- The head of a dropWhile result never satisfies the predicate. -/
theorem head?_dropWhile_false {α : Type} (p : α → Bool) :
    ∀ (l : List α) (a : α), (l.dropWhile p).head? = some a → p a = false := by
  intro l
  induction l with
  | nil => intro a h; simp at h
  | cons b t ih =>
    intro a h
    rw [List.dropWhile_cons] at h
    cases hb : p b with
    | true => rw [hb] at h; simp only [if_true] at h; exact ih a h
    | false =>
      rw [hb] at h
      simp only [Bool.false_eq_true, if_false, List.head?_cons, Option.some.injEq] at h
      subst h
      exact hb

/-- dropWhile is the identity when the head does not satisfy the predicate. -/
theorem dropWhile_eq_self_of_head? {α : Type} (p : α → Bool) (l : List α)
    (h : ∀ a, l.head? = some a → p a = false) : l.dropWhile p = l := by
  cases l with
  | nil => rfl
  | cons b t =>
    rw [List.dropWhile_cons]
    have hb := h b rfl
    simp [hb]

end Helpers

/-- jsTrim expressed through Mathlib's rdropWhile. -/
theorem jsTrim_eq (s : Str) :
    jsTrim s = List.rdropWhile isJsWhitespace (s.dropWhile isJsWhitespace) := rfl

/-- jsTrim is idempotent. -/
theorem jsTrim_idem (s : Str) : jsTrim (jsTrim s) = jsTrim s := by
  rw [jsTrim_eq s, jsTrim_eq]
  have h1 : List.dropWhile isJsWhitespace
      (List.rdropWhile isJsWhitespace (s.dropWhile isJsWhitespace)) =
      List.rdropWhile isJsWhitespace (s.dropWhile isJsWhitespace) := by
    apply dropWhile_eq_self_of_head?
    intro a ha
    obtain ⟨u, hu⟩ := List.rdropWhile_prefix isJsWhitespace (s.dropWhile isJsWhitespace)
    apply head?_dropWhile_false isJsWhitespace s a
    rw [← hu]
    cases hrd : List.rdropWhile isJsWhitespace (s.dropWhile isJsWhitespace) with
    | nil => rw [hrd] at ha; simp at ha
    | cons b t =>
      rw [hrd] at ha
      simp only [List.head?_cons, Option.some.injEq] at ha
      subst ha
      simp
  rw [h1, List.rdropWhile_idempotent]

/-- The last character of a trimmed string is not whitespace. -/
theorem jsTrim_getLast?_false (s : Str) (a : Char)
    (h : (jsTrim s).getLast? = some a) : isJsWhitespace a = false := by
  have he : (jsTrim s).getLast? =
      (((s.dropWhile isJsWhitespace).reverse).dropWhile isJsWhitespace).head? := by
    rw [List.getLast?_eq_head?_reverse]
    unfold jsTrim
    rw [List.reverse_reverse]
  rw [he] at h
  exact head?_dropWhile_false _ _ _ h

/-- Prepending the marker character to a non-empty trimmed string yields a
trimmed string. -/
theorem jsTrim_hash_cons (x : Str) (h0 : jsTrim x ≠ []) :
    jsTrim ('#' :: jsTrim x) = '#' :: jsTrim x := by
  rw [jsTrim_eq]
  have hd : List.dropWhile isJsWhitespace ('#' :: jsTrim x) = '#' :: jsTrim x := by
    rw [List.dropWhile_cons]
    simp [isJsWhitespace]
  rw [hd]
  rw [List.rdropWhile_eq_self_iff]
  intro hl
  have hgl : List.getLast ('#' :: jsTrim x) hl = List.getLast (jsTrim x) h0 :=
    List.getLast_cons h0
  rw [hgl]
  have hsome : (jsTrim x).getLast? = some (List.getLast (jsTrim x) h0) :=
    List.getLast?_eq_getLast _ h0
  have := jsTrim_getLast?_false x _ hsome
  simp [this]

/-- String.toList of the marker literal. -/
theorem hash_toList : String.toList ("#") = ['#'] := rfl

/-- String.toList of the separator literal. -/
theorem slash_toList : String.toList ("/") = ['/'] := rfl

/-- jsStartsWith on a one-character needle checks the head. -/
theorem jsStartsWith_single (t : Str) (c : Char) :
    jsStartsWith t [c] = true ↔ t.head? = some c := by
  cases t with
  | nil => simp [jsStartsWith]
  | cons a u =>
    simp only [jsStartsWith, List.isPrefixOf_iff_prefix, List.cons_prefix_cons,
      List.head?_cons, Option.some.injEq]
    constructor
    · rintro ⟨h1, _⟩; exact h1.symm
    · intro h; exact ⟨h.symm, List.nil_prefix⟩

/-- jsTrim of the empty string. -/
theorem jsTrim_nil : jsTrim [] = [] := rfl

/-- normalizeTag with the marker literal evaluated. -/
theorem normalizeTag_eq (tag : Str) :
    normalizeTag tag =
      (if jsTrim tag = [] then []
       else if jsStartsWith (jsTrim tag) ['#'] then jsTrim tag
       else '#' :: jsTrim tag) := rfl

/-- C7: normalizeTag is idempotent, a string that trims to empty
normalizes to the empty (discarded) result, and parseTagsInput never keeps
an empty tag. -/
theorem normalizeTag_idempotent (x : Str) :
    normalizeTag (normalizeTag x) = normalizeTag x ∧
    (jsTrim x = [] → normalizeTag x = []) ∧
    (∀ s : Str, [] ∉ parseTagsInput s) := by
  refine ⟨?_, ?_, ?_⟩
  · by_cases h0 : jsTrim x = []
    · simp [normalizeTag_eq, h0, jsTrim_nil]
    · by_cases h1 : jsStartsWith (jsTrim x) ['#'] = true
      · have hx : normalizeTag x = jsTrim x := by
          simp [normalizeTag_eq, h0, h1]
        rw [hx]
        simp [normalizeTag_eq, jsTrim_idem, h0, h1]
      · have hx : normalizeTag x = '#' :: jsTrim x := by
          simp [normalizeTag_eq, h0, h1]
        rw [hx]
        have h2 := jsTrim_hash_cons x h0
        have h3 : jsStartsWith ('#' :: jsTrim x) ['#'] = true := by
          rw [jsStartsWith_single]
          rfl
        simp [normalizeTag_eq, h2, h3]
  · intro h0
    simp [normalizeTag_eq, h0]
  · intro s hmem
    simp only [parseTagsInput, List.mem_filter] at hmem
    exact absurd hmem.2 (by simp)

/-- Witness for normalizeTag_idempotent at a concrete blank string. -/
theorem normalizeTag_idempotent_witness :
    normalizeTag (String.toList ("  ")) = [] :=
  (normalizeTag_idempotent (String.toList ("  "))).2.1 (by decide)

/-- Success of the matching predicate on a single pattern, characterized:
the pattern is one of the tags, or some tag extends the pattern past a
path separator (possibly by nothing at all, since the source tests
startsWith on pattern + "/"). -/
theorem tagMatchesAny_single_iff (T : List Str) (p : Str) :
    (tagMatchesAny T [p]).isSome = true ↔
      (p ∈ T ∨ ∃ t ∈ T, ∃ s : Str, t = p ++ '/' :: s) := by
  have hbase : tagMatchesAny T [p] =
      cond (T.any fun t => t == p || jsStartsWith t (p ++ String.toList ("/")))
        (some p) none := rfl
  have hiff : (T.any fun t => t == p || jsStartsWith t (p ++ String.toList ("/"))) = true ↔
      (p ∈ T ∨ ∃ t ∈ T, ∃ s : Str, t = p ++ '/' :: s) := by
    rw [List.any_eq_true]
    constructor
    · rintro ⟨t, ht, hmatch⟩
      rw [Bool.or_eq_true, beq_iff_eq] at hmatch
      rcases hmatch with heq | hpre
      · exact Or.inl (heq ▸ ht)
      · right
        refine ⟨t, ht, ?_⟩
        rw [jsStartsWith, List.isPrefixOf_iff_prefix] at hpre
        obtain ⟨u, hu⟩ := hpre
        refine ⟨u, ?_⟩
        rw [← hu, slash_toList, List.append_assoc]
        rfl
    · rintro (hmem | ⟨t, ht, u, hu⟩)
      · exact ⟨p, hmem, by simp⟩
      · refine ⟨t, ht, ?_⟩
        rw [Bool.or_eq_true]
        right
        rw [jsStartsWith, List.isPrefixOf_iff_prefix]
        refine ⟨u, ?_⟩
        rw [hu, slash_toList, List.append_assoc]
        rfl
  rw [hbase]
  cases hc : (T.any fun t => t == p || jsStartsWith t (p ++ String.toList ("/"))) with
  | true =>
    simp only [cond_true, Option.isSome_some, true_iff]
    exact hiff.mp hc
  | false =>
    simp only [cond_false, Option.isSome_none, Bool.false_eq_true, false_iff]
    intro hcontra
    exact absurd (hiff.mpr hcontra) (fun h => by rw [h] at hc; simp at hc)

/-- C3 counterexample: the tag set containing only "#a/" matches pattern
"#a" in the code, yet "#a/" is neither equal to "#a" nor of the form
"#a" ++ "/" ++ (one or more characters) required by the claim. -/
theorem tagMatchesAny_claim_counterexample :
    (tagMatchesAny [String.toList ("#a/")] [String.toList ("#a")]).isSome = true ∧
    ¬ (String.toList ("#a") ∈ [String.toList ("#a/")] ∨
       ∃ t ∈ [String.toList ("#a/")], ∃ c : Char, ∃ s : Str,
         t = String.toList ("#a") ++ '/' :: c :: s) := by
  constructor
  · decide
  · rintro (hmem | ⟨t, ht, c, s, hts⟩)
    · exact absurd hmem (by decide)
    · simp only [List.mem_singleton] at ht
      subst ht
      have := congrArg List.length hts
      simp at this

/-- C3 amended: the matching predicate succeeds for tag set T and pattern p
exactly when p is in T or some tag of T equals p followed by the path
separator and zero or more further characters; the two concrete examples of
the claim hold as stated. -/
theorem tagMatchesAny_characterization :
    (∀ (T : List Str) (p : Str),
      (tagMatchesAny T [p]).isSome = true ↔
        (p ∈ T ∨ ∃ t ∈ T, ∃ s : Str, t = p ++ '/' :: s)) ∧
    (tagMatchesAny [String.toList ("#a/b")] [String.toList ("#a")]).isSome = true ∧
    (tagMatchesAny [String.toList ("#ab")] [String.toList ("#a")]).isSome = false :=
  ⟨tagMatchesAny_single_iff, by decide, by decide⟩

/-- Membership in a Set after add. -/
theorem mem_setAdd (l : List Str) (f x : Str) :
    x ∈ setAdd l f ↔ x ∈ l ∨ x = f := by
  unfold setAdd
  by_cases h : f ∈ l
  · simp only [h, if_true]
    constructor
    · exact Or.inl
    · rintro (hx | rfl)
      · exact hx
      · exact h
  · simp [h]

/-- setAdd preserves duplicate-freeness. -/
theorem nodup_setAdd (l : List Str) (f : Str) (h : l.Nodup) :
    (setAdd l f).Nodup := by
  unfold setAdd
  by_cases hf : f ∈ l
  · simpa [hf]
  · rw [if_neg hf]
    simp [List.nodup_append, h, hf]

/-- Membership in a fold of setAdd. -/
theorem mem_foldl_setAdd (l : List Str) :
    ∀ (acc : List Str) (x : Str), x ∈ l.foldl setAdd acc ↔ x ∈ acc ∨ x ∈ l := by
  induction l with
  | nil => intro acc x; simp
  | cons a t ih =>
    intro acc x
    rw [List.foldl_cons, ih, mem_setAdd]
    constructor
    · rintro ((hx | rfl) | hx)
      · exact Or.inl hx
      · exact Or.inr (List.mem_cons_self _ _)
      · exact Or.inr (List.mem_cons_of_mem _ hx)
    · rintro (hx | hx)
      · exact Or.inl (Or.inl hx)
      · rcases List.mem_cons.mp hx with rfl | hx
        · exact Or.inl (Or.inr rfl)
        · exact Or.inr hx

/-- A fold of setAdd preserves duplicate-freeness. -/
theorem nodup_foldl_setAdd (l : List Str) :
    ∀ acc : List Str, acc.Nodup → (l.foldl setAdd acc).Nodup := by
  induction l with
  | nil => intro acc h; simpa
  | cons a t ih =>
    intro acc h
    rw [List.foldl_cons]
    exact ih _ (nodup_setAdd _ _ h)

/-- Membership in a fold that setAdds a function of each element. -/
theorem mem_foldl_setAdd_map (g : Str → Str) (vs : List Str) :
    ∀ (acc : List Str) (x : Str),
      x ∈ vs.foldl (fun acc t => setAdd acc (g t)) acc ↔ x ∈ acc ∨ ∃ v ∈ vs, x = g v := by
  induction vs with
  | nil => intro acc x; simp
  | cons a t ih =>
    intro acc x
    rw [List.foldl_cons, ih, mem_setAdd]
    constructor
    · rintro ((hx | rfl) | ⟨v, hv, rfl⟩)
      · exact Or.inl hx
      · exact Or.inr ⟨a, List.mem_cons_self _ _, rfl⟩
      · exact Or.inr ⟨v, List.mem_cons_of_mem _ hv, rfl⟩
    · rintro (hx | ⟨v, hv, rfl⟩)
      · exact Or.inl (Or.inl hx)
      · rcases List.mem_cons.mp hv with rfl | hv
        · exact Or.inl (Or.inr rfl)
        · exact Or.inr ⟨v, hv, rfl⟩

/-- A setAdd-of-function fold preserves duplicate-freeness. -/
theorem nodup_foldl_setAdd_map (g : Str → Str) (vs : List Str) :
    ∀ acc : List Str, acc.Nodup → (vs.foldl (fun acc t => setAdd acc (g t)) acc).Nodup := by
  induction vs with
  | nil => intro acc h; simpa
  | cons a t ih =>
    intro acc h
    rw [List.foldl_cons]
    exact ih _ (nodup_setAdd _ _ h)

/-- C5 amended: the classifier returns the deduplicated union of the raw
(unnormalized) inline tag strings and the normalized frontmatter tags; a
missing or malformed frontmatter field contributes nothing. -/
theorem collectTagsForFile_characterization :
    (∀ (inline : List Str) (fm : FmField) (x : Str),
      x ∈ collectTagsForFile inline fm ↔ x ∈ inline ∨ x ∈ fmContrib fm) ∧
    (∀ (inline : List Str) (fm : FmField), (collectTagsForFile inline fm).Nodup) := by
  constructor
  · intro inline fm x
    cases fm with
    | missing =>
      show x ∈ inline.foldl setAdd [] ↔ x ∈ inline ∨ x ∈ fmContrib FmField.missing
      rw [mem_foldl_setAdd]
      simp [fmContrib]
    | other =>
      show x ∈ inline.foldl setAdd [] ↔ x ∈ inline ∨ x ∈ fmContrib FmField.other
      rw [mem_foldl_setAdd]
      simp [fmContrib]
    | str s =>
      show x ∈ setAdd (inline.foldl setAdd []) (normalizeTag s) ↔
        x ∈ inline ∨ x ∈ fmContrib (FmField.str s)
      rw [mem_setAdd, mem_foldl_setAdd]
      simp only [fmContrib, List.not_mem_nil, false_or, List.mem_singleton]
    | arr vs =>
      show x ∈ vs.foldl (fun acc t => setAdd acc (normalizeTag t)) (inline.foldl setAdd []) ↔
        x ∈ inline ∨ x ∈ fmContrib (FmField.arr vs)
      rw [mem_foldl_setAdd_map, mem_foldl_setAdd]
      simp only [fmContrib, List.not_mem_nil, false_or, List.mem_map]
      constructor
      · rintro (h1 | h1)
        · exact Or.inl h1
        · obtain ⟨v, hv, hvx⟩ := h1
          exact Or.inr ⟨v, hv, hvx.symm⟩
      · rintro (h1 | h1)
        · exact Or.inl h1
        · obtain ⟨v, hv, hvx⟩ := h1
          exact Or.inr ⟨v, hv, hvx.symm⟩
  · intro inline fm
    cases fm with
    | missing => exact nodup_foldl_setAdd _ _ List.nodup_nil
    | other => exact nodup_foldl_setAdd _ _ List.nodup_nil
    | str s => exact nodup_setAdd _ _ (nodup_foldl_setAdd _ _ List.nodup_nil)
    | arr vs => exact nodup_foldl_setAdd_map _ _ _ (nodup_foldl_setAdd _ _ List.nodup_nil)

/-- C5 counterexample: the inline tag " x" is kept verbatim (its normalized
form "#x" is not in the result), and a blank frontmatter string contributes
the empty string instead of being discarded. -/
theorem collectTagsForFile_claim_counterexample :
    String.toList (" x") ∈ collectTagsForFile [String.toList (" x")] FmField.missing ∧
    normalizeTag (String.toList (" x")) ∉
      collectTagsForFile [String.toList (" x")] FmField.missing ∧
    [] ∈ collectTagsForFile [] (FmField.str (String.toList (" "))) := by
  refine ⟨by decide, by decide, by decide⟩

/-- lexLe is total. -/
theorem lexLe_total : ∀ s t : Str, lexLe s t = true ∨ lexLe t s = true := by
  intro s
  induction s with
  | nil => intro t; exact Or.inl rfl
  | cons a s ih =>
    intro t
    cases t with
    | nil => exact Or.inr rfl
    | cons b t =>
      by_cases hab : a = b
      · subst hab
        simp only [lexLe, if_true]
        exact ih t
      · rcases lt_or_gt_of_ne hab with hlt | hgt
        · left; simp [lexLe, hab, hlt]
        · right
          have hba : b ≠ a := fun h => hab h.symm
          simp [lexLe, hba, hgt]

/-- lexLe is transitive. -/
theorem lexLe_trans :
    ∀ s t u : Str, lexLe s t = true → lexLe t u = true → lexLe s u = true := by
  intro s
  induction s with
  | nil => intro t u _ _; rfl
  | cons a s ih =>
    intro t u h1 h2
    cases t with
    | nil => simp [lexLe] at h1
    | cons b t =>
      cases u with
      | nil => simp [lexLe] at h2
      | cons c u =>
        by_cases hab : a = b <;> by_cases hbc : b = c
        · subst hab; subst hbc
          simp only [lexLe, if_true] at h1 h2 ⊢
          exact ih t u h1 h2
        · subst hab
          simp only [lexLe, if_true] at h1
          simp only [lexLe, hbc, if_false, decide_eq_true_eq] at h2
          simp [lexLe, hbc, h2]
        · subst hbc
          simp only [lexLe, hab, if_false, decide_eq_true_eq] at h1
          simp [lexLe, hab, h1]
        · simp only [lexLe, hab, if_false, decide_eq_true_eq] at h1
          simp only [lexLe, hbc, if_false, decide_eq_true_eq] at h2
          have hac : a < c := lt_trans h1 h2
          have hne : a ≠ c := ne_of_lt hac
          simp [lexLe, hne, hac]

/-- cmpCountLe is transitive. -/
theorem cmpCountLe_trans (a b c : Str × GroupNode)
    (h1 : cmpCountLe a b = true) (h2 : cmpCountLe b c = true) :
    cmpCountLe a c = true := by
  unfold cmpCountLe at h1 h2 ⊢
  by_cases e1 : countFiles a.2 = countFiles b.2 <;>
    by_cases e2 : countFiles b.2 = countFiles c.2
  · rw [if_pos e1] at h1
    rw [if_pos e2] at h2
    rw [if_pos (e1.trans e2)]
    exact lexLe_trans _ _ _ h1 h2
  · rw [if_neg e2, decide_eq_true_eq] at h2
    have : countFiles c.2 < countFiles a.2 := e1 ▸ h2
    rw [if_neg (by omega), decide_eq_true_eq]
    exact this
  · rw [if_neg e1, decide_eq_true_eq] at h1
    have : countFiles c.2 < countFiles a.2 := e2 ▸ h1
    rw [if_neg (by omega), decide_eq_true_eq]
    exact this
  · rw [if_neg e1, decide_eq_true_eq] at h1
    rw [if_neg e2, decide_eq_true_eq] at h2
    have : countFiles c.2 < countFiles a.2 := lt_trans h2 h1
    rw [if_neg (by omega), decide_eq_true_eq]
    exact this

/-- cmpCountLe is total. -/
theorem cmpCountLe_total (a b : Str × GroupNode) :
    cmpCountLe a b || cmpCountLe b a := by
  unfold cmpCountLe
  by_cases e : countFiles a.2 = countFiles b.2
  · rw [if_pos e, if_pos e.symm]
    rcases lexLe_total a.1 b.1 with h | h
    · simp [h]
    · simp [h]
  · have e2 : countFiles b.2 ≠ countFiles a.2 := fun h => e h.symm
    rw [if_neg e, if_neg e2]
    rcases Nat.lt_or_ge (countFiles b.2) (countFiles a.2) with h | h
    · simp [h]
    · have : countFiles a.2 < countFiles b.2 := by omega
      simp [this]

/-- C9: getSortedEntries is total over any children mapping (the empty map
yields the empty sequence), returns a permutation of the entries, and in
the descending-count mode two entries with equal counts appear in ascending
label order. -/
theorem getSortedEntries_spec :
    (∀ mode, getSortedEntries [] mode = []) ∧
    (∀ (cs : List (Str × GroupNode)) (mode : SortMode),
      (getSortedEntries cs mode).Perm cs) ∧
    (∀ cs : List (Str × GroupNode),
      (getSortedEntries cs SortMode.count).Pairwise
        (fun a b => countFiles a.2 = countFiles b.2 → lexLe a.1 b.1 = true)) := by
  refine ⟨?_, ?_, ?_⟩
  · intro mode
    cases mode <;> simp [getSortedEntries]
  · intro cs mode
    cases mode <;> exact List.mergeSort_perm cs _
  · intro cs
    have hp : (getSortedEntries cs SortMode.count).Pairwise (fun a b => cmpCountLe a b) := by
      have := List.sorted_mergeSort
        (fun a b c => cmpCountLe_trans a b c)
        (fun a b => cmpCountLe_total a b) cs
      exact this
    apply hp.imp
    intro a b hab heq
    unfold cmpCountLe at hab
    rw [if_pos heq] at hab
    exact hab

/-- Filtering out one id from a list of views with distinct ids removes at
most one element. -/
theorem length_filter_ne_id (vid : Str) :
    ∀ l : List ViewCfg, (l.map (fun v => v.id)).Nodup →
      l.length ≤ (l.filter (fun v => v.id ≠ vid)).length + 1 := by
  intro l
  induction l with
  | nil => intro _; simp
  | cons v t ih =>
    intro hnd
    rw [List.map_cons, List.nodup_cons] at hnd
    obtain ⟨hv, ht⟩ := hnd
    by_cases hvid : v.id = vid
    · have hkeep : t.filter (fun v => v.id ≠ vid) = t := by
        apply List.filter_eq_self.mpr
        intro u hu
        have hne : u.id ≠ vid := by
          intro he
          exact hv (List.mem_map.mpr ⟨u, hu, he.trans hvid.symm⟩)
        simp [hne]
      rw [List.filter_cons]
      have hpred : (decide (v.id ≠ vid)) = false := by simp [hvid]
      rw [hpred]
      simp only [Bool.false_eq_true, if_false]
      rw [hkeep]
      simp
    · rw [List.filter_cons]
      have hpred : (decide (v.id ≠ vid)) = true := by simp [hvid]
      rw [hpred]
      simp only [if_true, List.length_cons]
      have := ih ht
      omega

/-- C10: deleting the only remaining view is rejected and leaves the
settings unchanged; for distinct view ids every deletion keeps the view
list non-empty, and a successful deletion of the active view remaps the
active id to a remaining view. -/
theorem deleteView_spec (s : MagiofilesSettings) (vid : Str) :
    (s.views.length = 1 → deleteView s vid = some s) ∧
    (s.views ≠ [] → (s.views.map (fun v => v.id)).Nodup →
      ∃ s2, deleteView s vid = some s2 ∧ s2.views ≠ [] ∧
        (s.activeViewId = some vid → s.views.length ≠ 1 →
          ∃ v ∈ s2.views, s2.activeViewId = some v.id)) := by
  constructor
  · intro h1
    simp [deleteView, h1]
  · intro hne hnd
    by_cases h1 : s.views.length = 1
    · exact ⟨s, by simp [deleteView, h1], hne, fun _ hc => absurd h1 hc⟩
    · have hlen1 : 0 < s.views.length := List.length_pos.mpr hne
      have hflen := length_filter_ne_id vid s.views hnd
      cases hvsc : s.views.filter (fun v => v.id ≠ vid) with
      | nil =>
        rw [hvsc] at hflen
        simp only [List.length_nil, Nat.zero_add] at hflen
        omega
      | cons v tail =>
        by_cases hact : s.activeViewId = some vid
        · refine ⟨{ s with views := v :: tail, activeViewId := some v.id }, ?_, by simp, ?_⟩
          · unfold deleteView
            rw [if_neg h1, if_pos hact, hvsc]
          · intro _ _
            exact ⟨v, List.mem_cons_self _ _, rfl⟩
        · refine ⟨{ s with views := v :: tail }, ?_, by simp, ?_⟩
          · unfold deleteView
            rw [if_neg h1, if_neg hact, hvsc]
          · intro hc _
            exact absurd hc hact

/-- Witness for deleteView_spec: deleting the active view of the concrete
two-view settings succeeds, keeps a view, and remaps the active id. -/
theorem deleteView_spec_witness :
    ∃ s2, deleteView testSettings (String.toList ("va")) = some s2 ∧ s2.views ≠ [] ∧
      (testSettings.activeViewId = some (String.toList ("va")) →
        testSettings.views.length ≠ 1 →
          ∃ v ∈ s2.views, s2.activeViewId = some v.id) :=
  (deleteView_spec testSettings (String.toList ("va"))).2 (by decide) (by decide)

/-- Unfolding of occ on a node. -/
theorem occ_mk (f n : Str) (l : Int) (cs : List (Str × GroupNode)) (fs : List Str) :
    occ f (GroupNode.mk n l cs fs) = fs.count f + occChildren f cs := by
  simp [occ, occChildren, treeFiles, List.count_append]

/-- occChildren on the empty children map. -/
theorem occChildren_nil (f : Str) : occChildren f [] = 0 := rfl

/-- Unfolding of occChildren on a cons cell. -/
theorem occChildren_cons (f : Str) (p : Str × GroupNode) (rest : List (Str × GroupNode)) :
    occChildren f (p :: rest) = occ f p.2 + occChildren f rest := by
  simp [occ, occChildren, treeFilesChildren, List.count_append]

/-- A child's occurrence count is bounded by the children map's. -/
theorem occ_le_occChildren (f : Str) :
    ∀ (cs : List (Str × GroupNode)) (p : Str × GroupNode), p ∈ cs →
      occ f p.2 ≤ occChildren f cs := by
  intro cs
  induction cs with
  | nil => intro p hp; simp at hp
  | cons q rest ih =>
    intro p hp
    rw [occChildren_cons]
    rcases List.mem_cons.mp hp with rfl | hp
    · omega
    · have := ih p hp
      omega

/-- occ of the empty node. -/
theorem occ_empty (f n : Str) (l : Int) : occ f (GroupNode.mk n l [] []) = 0 := by
  simp [occ_mk, occChildren_nil]

/-- countFilesChildren as a sum over the mapped children. -/
theorem countFilesChildren_eq_sum :
    ∀ cs : List (Str × GroupNode),
      countFilesChildren cs = (cs.map (fun p => countFiles p.2)).sum := by
  intro cs
  induction cs with
  | nil => rfl
  | cons p rest ih => simp [countFilesChildren, ih]

/-- countFiles counts the total number of file entries of the tree. -/
theorem countFiles_eq_length : ∀ t : GroupNode, countFiles t = (treeFiles t).length := by
  apply GroupNode.ind
  intro n l cs fs ih
  show fs.length + countFilesChildren cs = (fs ++ treeFilesChildren cs).length
  rw [List.length_append]
  have hcs : countFilesChildren cs = (treeFilesChildren cs).length := by
    clear n l fs
    induction cs with
    | nil => rfl
    | cons p rest ihc =>
      show countFiles p.2 + countFilesChildren rest = (treeFiles p.2 ++ treeFilesChildren rest).length
      rw [List.length_append, ih p (List.mem_cons_self _ _),
        ihc (fun q hq => ih q (List.mem_cons_of_mem _ hq))]
  omega

/-- An update that never changes the occurrence count of x, applied with a
default in which x does not occur, leaves occChildren at x unchanged. -/
theorem occChildren_assocUpdate_invar (x : Str) (g : GroupNode → GroupNode)
    (dflt : GroupNode) (Hg : ∀ c, occ x (g c) = occ x c) (Hd : occ x (g dflt) = 0) :
    ∀ (cs : List (Str × GroupNode)) (k : Str),
      occChildren x (assocUpdate cs k g dflt) = occChildren x cs := by
  intro cs
  induction cs with
  | nil =>
    intro k
    show occChildren x [(k, g dflt)] = occChildren x []
    rw [occChildren_cons, occChildren_nil]
    simpa using Hd
  | cons p tail ih =>
    intro k
    obtain ⟨k0, c⟩ := p
    show occChildren x (if k0 = k then (k0, g c) :: tail else (k0, c) :: assocUpdate tail k g dflt)
      = occChildren x ((k0, c) :: tail)
    by_cases hk : k0 = k
    · rw [if_pos hk, occChildren_cons, occChildren_cons]
      simp only [Hg]
    · rw [if_neg hk, occChildren_cons, occChildren_cons, ih]

/-- An update that turns a x-free node into one holding x exactly once,
applied to a children map free of x, makes occChildren at x one. -/
theorem occChildren_assocUpdate_one (x : Str) (g : GroupNode → GroupNode)
    (dflt : GroupNode) (Hg : ∀ c, occ x c = 0 → occ x (g c) = 1) (Hd : occ x (g dflt) = 1) :
    ∀ (cs : List (Str × GroupNode)) (k : Str), occChildren x cs = 0 →
      occChildren x (assocUpdate cs k g dflt) = 1 := by
  intro cs
  induction cs with
  | nil =>
    intro k _
    show occChildren x [(k, g dflt)] = 1
    rw [occChildren_cons, occChildren_nil, Hd]
  | cons p tail ih =>
    intro k h0
    obtain ⟨k0, c⟩ := p
    rw [occChildren_cons] at h0
    replace h0 : occ x c + occChildren x tail = 0 := h0
    show occChildren x (if k0 = k then (k0, g c) :: tail else (k0, c) :: assocUpdate tail k g dflt) = 1
    by_cases hk : k0 = k
    · rw [if_pos hk, occChildren_cons]
      have hc : occ x c = 0 := by omega
      have ht : occChildren x tail = 0 := by omega
      show occ x (g c) + occChildren x tail = 1
      rw [Hg c hc, ht]
    · rw [if_neg hk, occChildren_cons]
      show occ x c + occChildren x (assocUpdate tail k g dflt) = 1
      rw [ih k (by omega)]
      omega

/-- Adding a different file to a node leaves x's occurrence count unchanged. -/
theorem occ_nodeAddFile_ne (x y : Str) (hxy : x ≠ y) (c : GroupNode) :
    occ x (nodeAddFile c y) = occ x c := by
  obtain ⟨n, l, cs, fs⟩ := c
  show occ x (GroupNode.mk n l cs (setAdd fs y)) = occ x (GroupNode.mk n l cs fs)
  rw [occ_mk, occ_mk]
  unfold setAdd
  by_cases hy : y ∈ fs
  · rw [if_pos hy]
  · rw [if_neg hy, List.count_append]
    have hc0 : List.count x [y] = 0 := by
      rw [List.count_singleton]
      have hne : (y == x) = false := by
        rw [beq_eq_false_iff_ne]
        exact fun h => hxy h.symm
      rw [hne]
      rfl
    omega

/-- Adding x to a node in which x does not occur makes its count one. -/
theorem occ_nodeAddFile_self (x : Str) (c : GroupNode) (h : occ x c = 0) :
    occ x (nodeAddFile c x) = 1 := by
  obtain ⟨n, l, cs, fs⟩ := c
  rw [occ_mk] at h
  show occ x (GroupNode.mk n l cs (setAdd fs x)) = 1
  rw [occ_mk]
  have hfs : fs.count x = 0 := by omega
  have hcs : occChildren x cs = 0 := by omega
  have hmem : x ∉ fs := by
    intro hm
    rw [List.count_eq_zero] at hfs
    exact hfs hm
  unfold setAdd
  rw [if_neg hmem, List.count_append, hfs, hcs, List.count_singleton_self]

/-- bucketAdd with another file leaves x's count below the map unchanged. -/
theorem occChildren_bucketAdd_ne (x y k : Str) (li : Int) (hxy : x ≠ y)
    (cs : List (Str × GroupNode)) :
    occChildren x (bucketAdd cs k li y) = occChildren x cs := by
  unfold bucketAdd
  apply occChildren_assocUpdate_invar x _ _ (fun c => occ_nodeAddFile_ne x y hxy c)
  rw [occ_nodeAddFile_ne x y hxy _, occ_empty]

/-- bucketAdd of x into a map free of x makes its count one. -/
theorem occChildren_bucketAdd_self (x k : Str) (li : Int)
    (cs : List (Str × GroupNode)) (h : occChildren x cs = 0) :
    occChildren x (bucketAdd cs k li x) = 1 := by
  unfold bucketAdd
  apply occChildren_assocUpdate_one x _ _ (fun c hc => occ_nodeAddFile_self x c hc) _ cs k h
  exact occ_nodeAddFile_self x _ (occ_empty x k li)

/-- splitGo on the empty worklist. -/
theorem splitGo_nil (ft : Str → List Str) (lt : List Str) (li : Int)
    (cs : List (Str × GroupNode)) (rem : List Str) :
    splitGo ft lt li [] cs rem = (cs, rem) := rfl

/-- splitGo unfolded one step. -/
theorem splitGo_cons (ft : Str → List Str) (lt : List Str) (li : Int)
    (f : Str) (todo : List Str) (cs : List (Str × GroupNode)) (rem : List Str) :
    splitGo ft lt li (f :: todo) cs rem =
      match tagMatchesAny (ft f) lt with
      | some w =>
        if w = [] then splitGo ft lt li todo cs (rem ++ [f])
        else splitGo ft lt li todo (bucketAdd cs (stripHash w) li f) rem
      | none => splitGo ft lt li todo cs (rem ++ [f]) := rfl

/-- Occurrence bookkeeping of the per-file split loop: the buckets plus the
remaining list together receive each processed file exactly once, files on
the remaining list do not occur in the buckets, and the remaining list has
no duplicates. -/
theorem splitGo_props (ft : Str → List Str) (lt : List Str) (li : Int) :
    ∀ (todo : List Str) (cs : List (Str × GroupNode)) (rem : List Str),
      todo.Nodup → rem.Nodup →
      (∀ x ∈ todo, occChildren x cs = 0 ∧ x ∉ rem) →
      (∀ x ∈ rem, occChildren x cs = 0) →
      (∀ g, occChildren g (splitGo ft lt li todo cs rem).1
          + ((splitGo ft lt li todo cs rem).2).count g
        = occChildren g cs + rem.count g + todo.count g) ∧
      (∀ x ∈ (splitGo ft lt li todo cs rem).2,
        occChildren x (splitGo ft lt li todo cs rem).1 = 0) ∧
      ((splitGo ft lt li todo cs rem).2).Nodup := by
  intro todo
  induction todo with
  | nil =>
    intro cs rem _ hrnd _ hrem0
    rw [splitGo_nil]
    exact ⟨fun g => by simp, hrem0, hrnd⟩
  | cons f todo ih =>
    intro cs rem htnd hrnd htodo hrem0
    rw [List.nodup_cons] at htnd
    obtain ⟨hfnotin, htnd⟩ := htnd
    obtain ⟨hocc0, hfrem⟩ := htodo f (List.mem_cons_self _ _)
    cases hm : tagMatchesAny (ft f) lt with
    | some w =>
      have hstep : splitGo ft lt li (f :: todo) cs rem =
          if w = [] then splitGo ft lt li todo cs (rem ++ [f])
          else splitGo ft lt li todo (bucketAdd cs (stripHash w) li f) rem := by
        rw [splitGo_cons, hm]
      by_cases hw : w = []
      · rw [if_pos hw] at hstep
        rw [hstep]
        have hrnd2 : (rem ++ [f]).Nodup := by
          simp [List.nodup_append, hrnd, hfrem]
        have htodo2 : ∀ x ∈ todo, occChildren x cs = 0 ∧ x ∉ rem ++ [f] := by
          intro x hx
          obtain ⟨h1, h2⟩ := htodo x (List.mem_cons_of_mem _ hx)
          refine ⟨h1, ?_⟩
          simp only [List.mem_append, List.mem_singleton]
          rintro (hc | rfl)
          · exact h2 hc
          · exact hfnotin hx
        have hrem2 : ∀ x ∈ rem ++ [f], occChildren x cs = 0 := by
          intro x hx
          rcases List.mem_append.mp hx with hc | hc
          · exact hrem0 x hc
          · rw [List.mem_singleton] at hc
            subst hc
            exact hocc0
        obtain ⟨ha, hb, hc⟩ := ih cs (rem ++ [f]) htnd hrnd2 htodo2 hrem2
        refine ⟨?_, hb, hc⟩
        intro g
        rw [ha g]
        simp only [List.count_append, List.count_cons, List.count_nil]
        omega
      · rw [if_neg hw] at hstep
        rw [hstep]
        have htodo2 : ∀ x ∈ todo,
            occChildren x (bucketAdd cs (stripHash w) li f) = 0 ∧ x ∉ rem := by
          intro x hx
          obtain ⟨h1, h2⟩ := htodo x (List.mem_cons_of_mem _ hx)
          have hxf : x ≠ f := fun he => hfnotin (he ▸ hx)
          rw [occChildren_bucketAdd_ne x f (stripHash w) li hxf]
          exact ⟨h1, h2⟩
        have hrem2 : ∀ x ∈ rem, occChildren x (bucketAdd cs (stripHash w) li f) = 0 := by
          intro x hx
          have hxf : x ≠ f := fun he => hfrem (he ▸ hx)
          rw [occChildren_bucketAdd_ne x f (stripHash w) li hxf]
          exact hrem0 x hx
        obtain ⟨ha, hb, hc⟩ := ih (bucketAdd cs (stripHash w) li f) rem htnd hrnd htodo2 hrem2
        refine ⟨?_, hb, hc⟩
        intro g
        rw [ha g]
        by_cases hgf : g = f
        · subst hgf
          have h1 : occChildren g (bucketAdd cs (stripHash w) li g) = 1 :=
            occChildren_bucketAdd_self g (stripHash w) li cs hocc0
          rw [h1, List.count_cons, hocc0]
          simp [List.count_eq_zero.mpr hfnotin, List.count_eq_zero.mpr hfrem]
        · rw [occChildren_bucketAdd_ne g f (stripHash w) li hgf, List.count_cons]
          have hne : (f == g) = false := by
            rw [beq_eq_false_iff_ne]
            exact fun h => hgf h.symm
          rw [hne]
          simp only [Bool.false_eq_true, if_false]
          omega
    | none =>
      have hstep : splitGo ft lt li (f :: todo) cs rem =
          splitGo ft lt li todo cs (rem ++ [f]) := by
        rw [splitGo_cons, hm]
      rw [hstep]
      have hrnd2 : (rem ++ [f]).Nodup := by
        simp [List.nodup_append, hrnd, hfrem]
      have htodo2 : ∀ x ∈ todo, occChildren x cs = 0 ∧ x ∉ rem ++ [f] := by
        intro x hx
        obtain ⟨h1, h2⟩ := htodo x (List.mem_cons_of_mem _ hx)
        refine ⟨h1, ?_⟩
        simp only [List.mem_append, List.mem_singleton]
        rintro (hc | rfl)
        · exact h2 hc
        · exact hfnotin hx
      have hrem2 : ∀ x ∈ rem ++ [f], occChildren x cs = 0 := by
        intro x hx
        rcases List.mem_append.mp hx with hc | hc
        · exact hrem0 x hc
        · rw [List.mem_singleton] at hc
          subst hc
          exact hocc0
      obtain ⟨ha, hb, hc⟩ := ih cs (rem ++ [f]) htnd hrnd2 htodo2 hrem2
      refine ⟨?_, hb, hc⟩
      intro g
      rw [ha g]
      simp only [List.count_append, List.count_cons, List.count_nil]
      omega

/-- Occurrence bookkeeping of the catch-all fold: adding all files of a
duplicate-free remaining list absent from the buckets adds their counts. -/
theorem othersFold_occ (li : Int) :
    ∀ (rem : List Str) (cs : List (Str × GroupNode)),
      rem.Nodup → (∀ x ∈ rem, occChildren x cs = 0) →
      ∀ g, occChildren g (rem.foldl (fun acc f => bucketAdd acc othersLabel li f) cs)
        = occChildren g cs + rem.count g := by
  intro rem
  induction rem with
  | nil => intro cs _ _ g; simp
  | cons f rem ih =>
    intro cs hnd h0 g
    rw [List.nodup_cons] at hnd
    obtain ⟨hfnotin, hnd⟩ := hnd
    have hocc0 : occChildren f cs = 0 := h0 f (List.mem_cons_self _ _)
    rw [List.foldl_cons]
    have h02 : ∀ x ∈ rem, occChildren x (bucketAdd cs othersLabel li f) = 0 := by
      intro x hx
      have hxf : x ≠ f := fun he => hfnotin (he ▸ hx)
      rw [occChildren_bucketAdd_ne x f othersLabel li hxf]
      exact h0 x (List.mem_cons_of_mem _ hx)
    rw [ih (bucketAdd cs othersLabel li f) hnd h02 g]
    by_cases hgf : g = f
    · subst hgf
      have h1 : occChildren g (bucketAdd cs othersLabel li g) = 1 :=
        occChildren_bucketAdd_self g othersLabel li cs hocc0
      rw [h1, hocc0, List.count_cons]
      simp [List.count_eq_zero.mpr hfnotin]
    · rw [occChildren_bucketAdd_ne g f othersLabel li hgf, List.count_cons]
      have hne : (f == g) = false := by
        rw [beq_eq_false_iff_ne]
        exact fun h => hgf h.symm
      rw [hne]
      simp only [Bool.false_eq_true, if_false]
      omega

/-- Occurrence bookkeeping of finishSplit. -/
theorem finishSplit_occ (li : Int) (cs : List (Str × GroupNode)) (rem : List Str)
    (hnd : rem.Nodup) (h0 : ∀ x ∈ rem, occChildren x cs = 0) (g : Str) :
    occChildren g (finishSplit li cs rem) = occChildren g cs + rem.count g := by
  unfold finishSplit
  by_cases hr : rem = []
  · subst hr
    simp
  · rw [if_neg hr]
    exact othersFold_occ li rem cs hnd h0 g

/-- A list in which every element counts at most once has no duplicates. -/
theorem nodup_of_count_le_one :
    ∀ l : List Str, (∀ a : Str, l.count a ≤ 1) → l.Nodup := by
  intro l
  induction l with
  | nil => intro _; exact List.nodup_nil
  | cons a t ih =>
    intro h
    rw [List.nodup_cons]
    constructor
    · have := h a
      rw [List.count_cons_self] at this
      rw [← List.count_eq_zero]
      omega
    · apply ih
      intro x
      have := h x
      rw [List.count_cons] at this
      omega

/-- Element counts of a duplicate-free list. -/
theorem count_of_nodup :
    ∀ l : List Str, l.Nodup → ∀ x : Str, l.count x = if x ∈ l then 1 else 0 := by
  intro l
  induction l with
  | nil => intro _ x; simp
  | cons a t ih =>
    intro hnd x
    rw [List.nodup_cons] at hnd
    obtain ⟨hna, hnd⟩ := hnd
    rw [List.count_cons, ih hnd x]
    by_cases hxa : x = a
    · subst hxa
      simp [hna]
    · have hne : (a == x) = false := by
        rw [beq_eq_false_iff_ne]
        exact fun h => hxa h.symm
      rw [hne]
      simp only [Bool.false_eq_true, if_false, Nat.add_zero]
      by_cases hxt : x ∈ t
      · simp [hxt, List.mem_cons, Or.inr hxt]
      · have : x ∉ a :: t := by
          rw [List.mem_cons]
          rintro (rfl | hc)
          · exact hxa rfl
          · exact hxt hc
        simp [hxt, this]

/-- Two lists with the same element counts have the same length. -/
theorem length_eq_of_count_eq :
    ∀ (l1 l2 : List Str), (∀ g : Str, l1.count g = l2.count g) → l1.length = l2.length := by
  intro l1
  induction l1 with
  | nil =>
    intro l2 h
    cases l2 with
    | nil => rfl
    | cons b t =>
      have := h b
      rw [List.count_nil, List.count_cons_self] at this
      omega
  | cons a t ih =>
    intro l2 h
    have hmem : a ∈ l2 := by
      rw [← List.one_le_count_iff]
      have := h a
      rw [List.count_cons_self] at this
      omega
    obtain ⟨u, v, rfl⟩ := List.append_of_mem hmem
    have hcnt : ∀ g : Str, t.count g = (u ++ v).count g := by
      intro g
      have := h g
      rw [List.count_cons, List.count_append, List.count_cons] at this
      rw [List.count_append]
      omega
    have := ih (u ++ v) hcnt
    rw [List.length_cons, List.length_append, List.length_cons]
    rw [List.length_append] at this
    omega

/-- propagateLevel preserves the occurrence count of every file in a tree
in which no file occurs more than once. -/
theorem occ_propagateLevel (ft : Str → List Str) (lt : List Str) (li : Int) :
    ∀ t : GroupNode, (∀ g, occ g t ≤ 1) →
      ∀ f, occ f (propagateLevel ft lt li t) = occ f t := by
  apply GroupNode.ind
    (motive := fun t => (∀ g, occ g t ≤ 1) → ∀ f, occ f (propagateLevel ft lt li t) = occ f t)
  intro n l cs fs ih hb f
  by_cases hfs : fs = []
  · subst hfs
    have hprop : propagateLevel ft lt li (GroupNode.mk n l cs []) =
        GroupNode.mk n l (propagateChildren ft lt li cs) [] := by
      unfold propagateLevel
      rw [if_pos rfl]
    rw [hprop, occ_mk, occ_mk]
    have hch : ∀ cs2 : List (Str × GroupNode),
        (∀ p ∈ cs2, (∀ g, occ g p.2 ≤ 1) → ∀ f2, occ f2 (propagateLevel ft lt li p.2) = occ f2 p.2) →
        (∀ g p, p ∈ cs2 → occ g p.2 ≤ 1) →
        ∀ f2, occChildren f2 (propagateChildren ft lt li cs2) = occChildren f2 cs2 := by
      intro cs2
      induction cs2 with
      | nil => intro _ _ f2; rfl
      | cons p rest ihc =>
        intro hrec hb2 f2
        obtain ⟨k, c⟩ := p
        show occChildren f2 ((k, propagateLevel ft lt li c) :: propagateChildren ft lt li rest)
          = occChildren f2 ((k, c) :: rest)
        rw [occChildren_cons, occChildren_cons]
        have h1 : occ f2 (propagateLevel ft lt li c) = occ f2 c :=
          hrec (k, c) (List.mem_cons_self _ _) (fun g => hb2 g (k, c) (List.mem_cons_self _ _)) f2
        rw [h1, ihc (fun q hq => hrec q (List.mem_cons_of_mem _ hq))
          (fun g q hq => hb2 g q (List.mem_cons_of_mem _ hq))]
    rw [hch cs ih ?hbnd]
    case hbnd =>
      intro g p hp
      have h1 := occ_le_occChildren g cs p hp
      have h2 := hb g
      rw [occ_mk] at h2
      omega
  · have hprop : propagateLevel ft lt li (GroupNode.mk n l cs fs) =
        GroupNode.mk n l
          (finishSplit li (splitGo ft lt li fs cs []).1 (splitGo ft lt li fs cs []).2) [] := by
      unfold propagateLevel
      rw [if_neg hfs]
    have hfsnd : fs.Nodup := by
      apply nodup_of_count_le_one
      intro a
      have h2 := hb a
      rw [occ_mk] at h2
      omega
    have htodo : ∀ x ∈ fs, occChildren x cs = 0 ∧ x ∉ ([] : List Str) := by
      intro x hx
      refine ⟨?_, List.not_mem_nil x⟩
      have hcnt : 1 ≤ fs.count x := List.one_le_count_iff.mpr hx
      have h2 := hb x
      rw [occ_mk] at h2
      omega
    obtain ⟨ha, hrem0, hremnd⟩ :=
      splitGo_props ft lt li fs cs [] hfsnd List.nodup_nil htodo (fun x hx => absurd hx (List.not_mem_nil x))
    rw [hprop, occ_mk, occ_mk]
    rw [finishSplit_occ li _ _ hremnd hrem0 f]
    have := ha f
    simp only [List.count_nil] at this ⊢
    omega

/-- The matched set is duplicate-free and holds exactly the taggable files
with a truthy level match. -/
theorem buildMatched_props (ft : Str → List Str) (levels : List Level) :
    ∀ (l : List Str) (acc : List Str), acc.Nodup →
      ((l.foldl (fun acc f => if isMatched levels ft f then setAdd acc f else acc) acc).Nodup ∧
       ∀ x, x ∈ l.foldl (fun acc f => if isMatched levels ft f then setAdd acc f else acc) acc ↔
         (x ∈ acc ∨ (x ∈ l ∧ isMatched levels ft x = true))) := by
  intro l
  induction l with
  | nil =>
    intro acc hnd
    exact ⟨hnd, fun x => by simp⟩
  | cons a t ih =>
    intro acc hnd
    rw [List.foldl_cons]
    by_cases hm : isMatched levels ft a = true
    · rw [if_pos hm]
      obtain ⟨h1, h2⟩ := ih (setAdd acc a) (nodup_setAdd acc a hnd)
      refine ⟨h1, ?_⟩
      intro x
      rw [h2 x, mem_setAdd]
      constructor
      · rintro ((hx | rfl) | ⟨hx, hmx⟩)
        · exact Or.inl hx
        · exact Or.inr ⟨List.mem_cons_self _ _, hm⟩
        · exact Or.inr ⟨List.mem_cons_of_mem _ hx, hmx⟩
      · rintro (hx | ⟨hx, hmx⟩)
        · exact Or.inl (Or.inl hx)
        · rcases List.mem_cons.mp hx with rfl | hx
          · exact Or.inl (Or.inr rfl)
          · exact Or.inr ⟨hx, hmx⟩
    · rw [if_neg hm]
      obtain ⟨h1, h2⟩ := ih acc hnd
      refine ⟨h1, ?_⟩
      intro x
      rw [h2 x]
      constructor
      · rintro (hx | ⟨hx, hmx⟩)
        · exact Or.inl hx
        · exact Or.inr ⟨List.mem_cons_of_mem _ hx, hmx⟩
      · rintro (hx | ⟨hx, hmx⟩)
        · exact Or.inl hx
        · rcases List.mem_cons.mp hx with rfl | hx
          · exact absurd hmx hm
          · exact Or.inr ⟨hx, hmx⟩

/-- buildMatched is duplicate-free. -/
theorem buildMatched_nodup (mdFiles : List Str) (ft : Str → List Str) (levels : List Level) :
    (buildMatched mdFiles ft levels).Nodup :=
  (buildMatched_props ft levels mdFiles [] List.nodup_nil).1

/-- Membership in buildMatched. -/
theorem buildMatched_mem (mdFiles : List Str) (ft : Str → List Str) (levels : List Level)
    (x : Str) :
    x ∈ buildMatched mdFiles ft levels ↔ (x ∈ mdFiles ∧ isMatched levels ft x = true) := by
  rw [buildMatched, (buildMatched_props ft levels mdFiles [] List.nodup_nil).2 x]
  simp

/-- The Tag Tree of a build holds each file as often as the matched list
does (that is, matched files once and all other files not at all). -/
theorem occ_buildTagTree (matched : List Str) (ft : Str → List Str) (levels : List Level)
    (hnd : matched.Nodup) (f : Str) :
    occ f (buildTagTree matched ft levels) = matched.count f := by
  unfold buildTagTree
  have hgen : ∀ (L : List (Nat × Level)) (T : GroupNode), (∀ g, occ g T ≤ 1) →
      ∀ f2, occ f2 (L.foldl (fun root p => propagateLevel ft p.2.tags (Int.ofNat p.1) root) T)
        = occ f2 T := by
    intro L
    induction L with
    | nil => intro T _ f2; rfl
    | cons p rest ihl =>
      intro T hb f2
      rw [List.foldl_cons]
      have hpres := occ_propagateLevel ft p.2.tags (Int.ofNat p.1) T hb
      have hb2 : ∀ g, occ g (propagateLevel ft p.2.tags (Int.ofNat p.1) T) ≤ 1 := by
        intro g
        rw [hpres g]
        exact hb g
      rw [ihl _ hb2 f2, hpres f2]
  have hb0 : ∀ g, occ g (GroupNode.mk rootLabel (-1) [] matched) ≤ 1 := by
    intro g
    rw [occ_mk, occChildren_nil]
    have := count_of_nodup matched hnd g
    by_cases hg : g ∈ matched <;> simp [hg] at this <;> omega
  rw [hgen levels.enum _ hb0 f, occ_mk, occChildren_nil]
  omega

/-- Inserting a different file along any folder path leaves x's count
unchanged. -/
theorem occ_insertFolderPath_ne (x f : Str) (hxf : x ≠ f) :
    ∀ (parts : List Str) (t : GroupNode),
      occ x (insertFolderPath f parts t) = occ x t := by
  intro parts
  induction parts with
  | nil =>
    intro t
    exact occ_nodeAddFile_ne x f hxf t
  | cons seg rest ih =>
    intro t
    obtain ⟨n, l, cs, fs⟩ := t
    show occ x (GroupNode.mk n l
      (assocUpdate cs seg (insertFolderPath f rest) (GroupNode.mk seg (l + 1) [] [])) fs)
      = occ x (GroupNode.mk n l cs fs)
    rw [occ_mk, occ_mk]
    rw [occChildren_assocUpdate_invar x (insertFolderPath f rest) _ (fun c => ih c) ?hd cs seg]
    case hd =>
      rw [ih _, occ_empty]

/-- Inserting a file absent from the tree along any folder path makes its
count one. -/
theorem occ_insertFolderPath_self (f : Str) :
    ∀ (parts : List Str) (t : GroupNode), occ f t = 0 →
      occ f (insertFolderPath f parts t) = 1 := by
  intro parts
  induction parts with
  | nil =>
    intro t h
    exact occ_nodeAddFile_self f t h
  | cons seg rest ih =>
    intro t h
    obtain ⟨n, l, cs, fs⟩ := t
    rw [occ_mk] at h
    show occ f (GroupNode.mk n l
      (assocUpdate cs seg (insertFolderPath f rest) (GroupNode.mk seg (l + 1) [] [])) fs) = 1
    rw [occ_mk]
    have hfs : fs.count f = 0 := by omega
    have hcs : occChildren f cs = 0 := by omega
    rw [hfs, occChildren_assocUpdate_one f (insertFolderPath f rest) _
      (fun c hc => ih c hc) (ih _ (occ_empty f seg (l + 1))) cs seg hcs]

/-- addFileToFolderTree with a different path leaves x's count unchanged. -/
theorem occ_addFileToFolderTree_ne (x p : Str) (hxp : x ≠ p) (t : GroupNode) :
    occ x (addFileToFolderTree t p) = occ x t :=
  occ_insertFolderPath_ne x p hxp _ t

/-- addFileToFolderTree of a path absent from the tree makes its count one. -/
theorem occ_addFileToFolderTree_self (p : Str) (t : GroupNode) (h : occ p t = 0) :
    occ p (addFileToFolderTree t p) = 1 :=
  occ_insertFolderPath_self p _ t h

/-- The Folder Tree fold holds each file exactly as often as the
unmatched sublist of its duplicate-free input. -/
theorem occ_folderFold (matched : List Str) :
    ∀ (l : List Str) (t : GroupNode), l.Nodup → (∀ x ∈ l, occ x t = 0) →
      ∀ g, occ g (l.foldl (fun root f => if f ∈ matched then root else addFileToFolderTree root f) t)
        = occ g t + (l.filter (fun f => !(decide (f ∈ matched)))).count g := by
  intro l
  induction l with
  | nil => intro t _ _ g; simp
  | cons f l ih =>
    intro t hnd h0 g
    rw [List.nodup_cons] at hnd
    obtain ⟨hfnotin, hnd⟩ := hnd
    rw [List.foldl_cons, List.filter_cons]
    by_cases hfm : f ∈ matched
    · rw [if_pos hfm]
      have hpred : (!(decide (f ∈ matched))) = false := by simp [hfm]
      rw [hpred]
      simp only [Bool.false_eq_true, if_false]
      exact ih t hnd (fun x hx => h0 x (List.mem_cons_of_mem _ hx)) g
    · rw [if_neg hfm]
      have hpred : (!(decide (f ∈ matched))) = true := by simp [hfm]
      rw [hpred, if_pos rfl]
      have hf0 : occ f t = 0 := h0 f (List.mem_cons_self _ _)
      have h02 : ∀ x ∈ l, occ x (addFileToFolderTree t f) = 0 := by
        intro x hx
        have hxf : x ≠ f := fun he => hfnotin (he ▸ hx)
        rw [occ_addFileToFolderTree_ne x f hxf t]
        exact h0 x (List.mem_cons_of_mem _ hx)
      rw [ih (addFileToFolderTree t f) hnd h02 g]
      by_cases hgf : g = f
      · subst hgf
        rw [occ_addFileToFolderTree_self g t hf0, hf0, List.count_cons_self]
        omega
      · rw [occ_addFileToFolderTree_ne g f hgf t, List.count_cons]
        have hne : (f == g) = false := by
          rw [beq_eq_false_iff_ne]
          exact fun h => hgf h.symm
        rw [hne]
        simp only [Bool.false_eq_true, if_false]
        omega

/-- The Folder Tree of a build holds each file exactly as often as the
unmatched sublist of the vault file list. -/
theorem occ_buildFolderTree (allFiles matched : List Str) (hnd : allFiles.Nodup) (g : Str) :
    occ g (buildFolderTree allFiles matched)
      = (allFiles.filter (fun f => !(decide (f ∈ matched)))).count g := by
  unfold buildFolderTree
  rw [occ_folderFold matched allFiles _ hnd (fun x _ => occ_empty x rootLabel (-1)) g,
    occ_empty]
  omega

/-- C1: every file of a duplicate-free collection occurs exactly once in
the two trees of a build taken together: it is reachable from exactly one
of the Tag Tree root and the Folder Tree root, appears in no node of the
other tree, and appears exactly once within the tree that holds it. -/
theorem buildTrees_partition (allFiles mdFiles : List Str) (ft : Str → List Str)
    (levels : List Level) (hnd : allFiles.Nodup) :
    ∀ f ∈ allFiles,
      occ f (buildTrees allFiles mdFiles ft levels).1
        + occ f (buildTrees allFiles mdFiles ft levels).2 = 1 := by
  intro f hf
  show occ f (buildTagTree (buildMatched mdFiles ft levels) ft levels)
    + occ f (buildFolderTree allFiles (buildMatched mdFiles ft levels)) = 1
  rw [occ_buildTagTree _ ft levels (buildMatched_nodup mdFiles ft levels) f,
    occ_buildFolderTree allFiles _ hnd f]
  have hmnd := buildMatched_nodup mdFiles ft levels
  have hfnd : (allFiles.filter
      (fun f => !(decide (f ∈ buildMatched mdFiles ft levels)))).Nodup :=
    hnd.filter _
  rw [count_of_nodup _ hmnd f, count_of_nodup _ hfnd f]
  by_cases hm : f ∈ buildMatched mdFiles ft levels
  · have hnotf : f ∉ allFiles.filter
        (fun f => !(decide (f ∈ buildMatched mdFiles ft levels))) := by
      rw [List.mem_filter]
      rintro ⟨_, hpred⟩
      simp [hm] at hpred
    simp [hm, hnotf]
  · have hinf : f ∈ allFiles.filter
        (fun f => !(decide (f ∈ buildMatched mdFiles ft levels))) := by
      rw [List.mem_filter]
      exact ⟨hf, by simp [hm]⟩
    simp [hm, hinf]

/-- Witness for buildTrees_partition at the concrete scenario. -/
theorem buildTrees_partition_witness :
    occ (String.toList ("A.md")) (buildTrees sampleFiles sampleFiles sampleTags sampleLevels).1
      + occ (String.toList ("A.md"))
          (buildTrees sampleFiles sampleFiles sampleTags sampleLevels).2 = 1 :=
  buildTrees_partition sampleFiles sampleFiles sampleTags sampleLevels (by decide)
    (String.toList ("A.md")) (by decide)

/-- Splitting a list by a membership test partitions its length. -/
theorem length_filter_split (m : List Str) :
    ∀ l : List Str,
      (l.filter (fun f => decide (f ∈ m))).length
        + (l.filter (fun f => !(decide (f ∈ m)))).length = l.length := by
  intro l
  induction l with
  | nil => rfl
  | cons a t ih =>
    rw [List.filter_cons, List.filter_cons]
    by_cases ha : a ∈ m
    · have h1 : decide (a ∈ m) = true := decide_eq_true ha
      rw [h1]
      simp only [Bool.not_true, Bool.false_eq_true, if_false, if_true, List.length_cons]
      omega
    · have h1 : decide (a ∈ m) = false := decide_eq_false ha
      rw [h1]
      simp only [Bool.not_false, Bool.false_eq_true, if_false, if_true, List.length_cons]
      omega

/-- C2: countFiles is the node's own file count plus the recursive sum
over its children, and for every build on a duplicate-free collection the
two root counts sum to the collection's size. -/
theorem countFiles_spec :
    (∀ (n : Str) (l : Int) (cs : List (Str × GroupNode)) (fs : List Str),
      countFiles (GroupNode.mk n l cs fs)
        = fs.length + (cs.map (fun p => countFiles p.2)).sum) ∧
    (∀ (allFiles mdFiles : List Str) (ft : Str → List Str) (levels : List Level),
      allFiles.Nodup → (∀ f ∈ mdFiles, f ∈ allFiles) →
      countFiles (buildTrees allFiles mdFiles ft levels).1
        + countFiles (buildTrees allFiles mdFiles ft levels).2 = allFiles.length) := by
  constructor
  · intro n l cs fs
    show fs.length + countFilesChildren cs = _
    rw [countFilesChildren_eq_sum]
  · intro allFiles mdFiles ft levels hnd hsub
    have hmnd := buildMatched_nodup mdFiles ft levels
    have h1 : countFiles (buildTrees allFiles mdFiles ft levels).1
        = (buildMatched mdFiles ft levels).length := by
      show countFiles (buildTagTree (buildMatched mdFiles ft levels) ft levels) = _
      rw [countFiles_eq_length]
      apply length_eq_of_count_eq
      intro g
      exact occ_buildTagTree (buildMatched mdFiles ft levels) ft levels hmnd g
    have h2 : countFiles (buildTrees allFiles mdFiles ft levels).2
        = (allFiles.filter
            (fun f => !(decide (f ∈ buildMatched mdFiles ft levels)))).length := by
      show countFiles (buildFolderTree allFiles (buildMatched mdFiles ft levels)) = _
      rw [countFiles_eq_length]
      apply length_eq_of_count_eq
      intro g
      exact occ_buildFolderTree allFiles _ hnd g
    have h3 : (buildMatched mdFiles ft levels).length
        = (allFiles.filter
            (fun f => decide (f ∈ buildMatched mdFiles ft levels))).length := by
      apply length_eq_of_count_eq
      intro g
      rw [count_of_nodup _ hmnd g, count_of_nodup _ (hnd.filter _) g]
      by_cases hg : g ∈ buildMatched mdFiles ft levels
      · have hga : g ∈ allFiles := hsub g ((buildMatched_mem mdFiles ft levels g).mp hg).1
        have hmemf : g ∈ allFiles.filter
            (fun f => decide (f ∈ buildMatched mdFiles ft levels)) := by
          rw [List.mem_filter]
          exact ⟨hga, decide_eq_true hg⟩
        simp [hg, hmemf]
      · have hmemf : g ∉ allFiles.filter
            (fun f => decide (f ∈ buildMatched mdFiles ft levels)) := by
          rw [List.mem_filter]
          rintro ⟨_, hp⟩
          exact hg (of_decide_eq_true hp)
        simp [hg, hmemf]
    have h4 := length_filter_split (buildMatched mdFiles ft levels) allFiles
    rw [h1, h2, h3]
    omega

/-- Witness for countFiles_spec at the concrete scenario. -/
theorem countFiles_spec_witness :
    countFiles (buildTrees sampleFiles sampleFiles sampleTags sampleLevels).1
      + countFiles (buildTrees sampleFiles sampleFiles sampleTags sampleLevels).2
      = sampleFiles.length :=
  countFiles_spec.2 sampleFiles sampleFiles sampleTags sampleLevels (by decide)
    (fun f hf => hf)

/-- bucketAdd keeps every bucket childless. -/
theorem flatChildren_bucketAdd (cs : List (Str × GroupNode)) (k : Str) (li : Int) (f : Str)
    (h : flatChildren cs) : flatChildren (bucketAdd cs k li f) := by
  unfold bucketAdd
  induction cs with
  | nil =>
    intro p hp
    show p.2.children = []
    rcases List.mem_singleton.mp hp with rfl
    rfl
  | cons q tail ih =>
    obtain ⟨k0, c⟩ := q
    show flatChildren (if k0 = k then (k0, nodeAddFile c f) :: tail
      else (k0, c) :: assocUpdate tail k (fun c => nodeAddFile c f) (GroupNode.mk k li [] []))
    by_cases hk : k0 = k
    · rw [if_pos hk]
      intro p hp
      rcases List.mem_cons.mp hp with rfl | hp
      · show (nodeAddFile c f).children = []
        obtain ⟨n2, l2, cs2, fs2⟩ := c
        have := h (k0, GroupNode.mk n2 l2 cs2 fs2) (List.mem_cons_self _ _)
        exact this
      · exact h p (List.mem_cons_of_mem _ hp)
    · rw [if_neg hk]
      intro p hp
      rcases List.mem_cons.mp hp with rfl | hp
      · exact h (k0, c) (List.mem_cons_self _ _)
      · exact ih (fun q hq => h q (List.mem_cons_of_mem _ hq)) p hp

/-- The split loop keeps every bucket childless. -/
theorem flatChildren_splitGo (ft : Str → List Str) (lt : List Str) (li : Int) :
    ∀ (todo : List Str) (cs : List (Str × GroupNode)) (rem : List Str),
      flatChildren cs → flatChildren (splitGo ft lt li todo cs rem).1 := by
  intro todo
  induction todo with
  | nil => intro cs rem h; exact h
  | cons f todo ih =>
    intro cs rem h
    cases hm : tagMatchesAny (ft f) lt with
    | some w =>
      have hstep : splitGo ft lt li (f :: todo) cs rem =
          if w = [] then splitGo ft lt li todo cs (rem ++ [f])
          else splitGo ft lt li todo (bucketAdd cs (stripHash w) li f) rem := by
        rw [splitGo_cons, hm]
      by_cases hw : w = []
      · rw [if_pos hw] at hstep
        rw [hstep]
        exact ih cs (rem ++ [f]) h
      · rw [if_neg hw] at hstep
        rw [hstep]
        exact ih _ rem (flatChildren_bucketAdd cs (stripHash w) li f h)
    | none =>
      have hstep : splitGo ft lt li (f :: todo) cs rem =
          splitGo ft lt li todo cs (rem ++ [f]) := by
        rw [splitGo_cons, hm]
      rw [hstep]
      exact ih cs (rem ++ [f]) h

/-- finishSplit keeps every bucket childless. -/
theorem flatChildren_finishSplit (li : Int) (cs : List (Str × GroupNode)) :
    ∀ rem : List Str, flatChildren cs → flatChildren (finishSplit li cs rem) := by
  intro rem
  unfold finishSplit
  by_cases hr : rem = []
  · rw [if_pos hr]
    exact id
  · rw [if_neg hr]
    intro h
    clear hr
    induction rem generalizing cs with
    | nil => exact h
    | cons f rem ih =>
      rw [List.foldl_cons]
      exact ih _ (flatChildren_bucketAdd cs othersLabel li f h)

/-- A childless node satisfies leafOnly. -/
theorem leafOnly_of_no_children (t : GroupNode) (h : t.children = []) :
    leafOnly t = true := by
  obtain ⟨n, l, cs, fs⟩ := t
  have : cs = [] := h
  subst this
  rfl

/-- A map of childless buckets satisfies leafOnlyChildren. -/
theorem leafOnlyChildren_of_flat :
    ∀ cs : List (Str × GroupNode), flatChildren cs → leafOnlyChildren cs = true := by
  intro cs
  induction cs with
  | nil => intro _; rfl
  | cons p rest ih =>
    intro h
    show (leafOnly p.2 && leafOnlyChildren rest) = true
    rw [leafOnly_of_no_children p.2 (h p (List.mem_cons_self _ _)),
      ih (fun q hq => h q (List.mem_cons_of_mem _ hq))]
    rfl

/-- propagateLevel preserves the terminal-bucket invariant. -/
theorem leafOnly_propagateLevel (ft : Str → List Str) (lt : List Str) (li : Int) :
    ∀ t : GroupNode, leafOnly t = true → leafOnly (propagateLevel ft lt li t) = true := by
  apply GroupNode.ind
    (motive := fun t => leafOnly t = true → leafOnly (propagateLevel ft lt li t) = true)
  intro n l cs fs ih h
  have hunf : leafOnly (GroupNode.mk n l cs fs)
      = ((cs.isEmpty || fs.isEmpty) && leafOnlyChildren cs) := rfl
  rw [hunf, Bool.and_eq_true, Bool.or_eq_true] at h
  obtain ⟨hor, hchildren⟩ := h
  by_cases hfs : fs = []
  · subst hfs
    have hprop : propagateLevel ft lt li (GroupNode.mk n l cs []) =
        GroupNode.mk n l (propagateChildren ft lt li cs) [] := by
      unfold propagateLevel
      rw [if_pos rfl]
    rw [hprop]
    show (((propagateChildren ft lt li cs).isEmpty || ([] : List Str).isEmpty)
        && leafOnlyChildren (propagateChildren ft lt li cs)) = true
    rw [Bool.and_eq_true, Bool.or_eq_true]
    constructor
    · right; rfl
    · clear hor hunf hprop
      induction cs with
      | nil => rfl
      | cons p rest ihc =>
        obtain ⟨k, c⟩ := p
        show (leafOnly (propagateLevel ft lt li c)
          && leafOnlyChildren (propagateChildren ft lt li rest)) = true
        rw [Bool.and_eq_true]
        have hc : (leafOnly c && leafOnlyChildren rest) = true := hchildren
        rw [Bool.and_eq_true] at hc
        constructor
        · exact ih (k, c) (List.mem_cons_self _ _) hc.1
        · exact ihc (fun q hq => ih q (List.mem_cons_of_mem _ hq)) hc.2
  · have hcs : cs = [] := by
      rcases hor with h1 | h1
      · exact List.isEmpty_iff.mp h1
      · exact absurd (List.isEmpty_iff.mp h1) hfs
    subst hcs
    have hprop : propagateLevel ft lt li (GroupNode.mk n l [] fs) =
        GroupNode.mk n l
          (finishSplit li (splitGo ft lt li fs [] []).1 (splitGo ft lt li fs [] []).2) [] := by
      unfold propagateLevel
      rw [if_neg hfs]
    rw [hprop]
    show (((finishSplit li (splitGo ft lt li fs [] []).1 (splitGo ft lt li fs [] []).2).isEmpty
        || ([] : List Str).isEmpty)
      && leafOnlyChildren
          (finishSplit li (splitGo ft lt li fs [] []).1 (splitGo ft lt li fs [] []).2)) = true
    rw [Bool.and_eq_true, Bool.or_eq_true]
    refine ⟨Or.inr rfl, ?_⟩
    apply leafOnlyChildren_of_flat
    apply flatChildren_finishSplit
    apply flatChildren_splitGo
    intro p hp
    exact absurd hp (List.not_mem_nil p)

/-- C6 amended: in the Tag Tree of every build, a node with a non-empty
children map has an empty own file set (files live only in terminal
buckets); the Folder Tree does not satisfy this invariant. -/
theorem tagTree_leafOnly (allFiles mdFiles : List Str) (ft : Str → List Str)
    (levels : List Level) :
    leafOnly (buildTrees allFiles mdFiles ft levels).1 = true := by
  show leafOnly (buildTagTree (buildMatched mdFiles ft levels) ft levels) = true
  unfold buildTagTree
  have hroot : leafOnly (GroupNode.mk rootLabel (-1) [] (buildMatched mdFiles ft levels))
      = true := rfl
  have hgen : ∀ (L : List (Nat × Level)) (T : GroupNode), leafOnly T = true →
      leafOnly (L.foldl (fun root p => propagateLevel ft p.2.tags (Int.ofNat p.1) root) T)
        = true := by
    intro L
    induction L with
    | nil => intro T h; exact h
    | cons p rest ihl =>
      intro T h
      rw [List.foldl_cons]
      exact ihl _ (leafOnly_propagateLevel ft p.2.tags (Int.ofNat p.1) T h)
  exact hgen levels.enum _ hroot

/-- C6 counterexample: in the Folder Tree of the build on a vault whose
folder "a" holds both the file "a/b.md" and the subfolder "a/c", the node
"a" has a non-empty children map and a non-empty own file set, so the
claimed invariant fails for the Folder Tree. -/
theorem leafOnly_claim_counterexample :
    leafOnly (buildTrees nestedFiles [] noTags []).2 = false ∧
    ((childNode? ((buildTrees nestedFiles [] noTags []).2).children
        (String.toList ("a"))).map
      (fun b => (b.children.isEmpty, b.files.isEmpty))) = some (false, false) := by
  constructor
  · decide
  · decide

/-- childNode? on a cons cell. -/
theorem childNode?_cons (k0 : Str) (c : GroupNode) (tail : List (Str × GroupNode)) (k : Str) :
    childNode? ((k0, c) :: tail) k = if k0 = k then some c else childNode? tail k := rfl

/-- Membership in the files of a node after adding a file. -/
theorem mem_files_nodeAddFile (c : GroupNode) (y x : Str) :
    x ∈ (nodeAddFile c y).files ↔ x ∈ c.files ∨ x = y := by
  obtain ⟨n, l, cs, fs⟩ := c
  show x ∈ setAdd fs y ↔ x ∈ fs ∨ x = y
  exact mem_setAdd fs y x

/-- memBucket on the empty children map. -/
theorem memBucket_nil (k x : Str) : ¬ memBucket [] k x := by
  rintro ⟨b, hb, _⟩
  simp [childNode?] at hb

/-- Bucket membership after a bucketAdd. -/
theorem memBucket_bucketAdd (k' : Str) (li : Int) (y : Str) :
    ∀ (cs : List (Str × GroupNode)) (k x : Str),
      memBucket (bucketAdd cs k' li y) k x ↔ memBucket cs k x ∨ (k = k' ∧ x = y) := by
  intro cs
  induction cs with
  | nil =>
    intro k x
    show memBucket [(k', nodeAddFile (GroupNode.mk k' li [] []) y)] k x ↔ _
    constructor
    · rintro ⟨b, hb, hx⟩
      rw [childNode?_cons] at hb
      by_cases hk : k' = k
      · rw [if_pos hk, Option.some.injEq] at hb
        subst hb
        rw [mem_files_nodeAddFile] at hx
        rcases hx with hx | rfl
        · exact absurd hx (List.not_mem_nil x)
        · exact Or.inr ⟨hk.symm, rfl⟩
      · rw [if_neg hk] at hb
        simp [childNode?] at hb
    · rintro (hmem | ⟨rfl, rfl⟩)
      · exact absurd hmem (memBucket_nil k x)
      · refine ⟨nodeAddFile (GroupNode.mk k li [] []) x, ?_, ?_⟩
        · rw [childNode?_cons, if_pos rfl]
        · rw [mem_files_nodeAddFile]
          exact Or.inr rfl
  | cons q tail ih =>
    intro k x
    obtain ⟨k0, c⟩ := q
    show memBucket (if k0 = k' then (k0, nodeAddFile c y) :: tail
      else (k0, c) :: assocUpdate tail k' (fun c => nodeAddFile c y) (GroupNode.mk k' li [] [])) k x
      ↔ _
    by_cases hk0 : k0 = k'
    · rw [if_pos hk0]
      subst hk0
      by_cases hk : k0 = k
      · subst hk
        constructor
        · rintro ⟨b, hb, hx⟩
          rw [childNode?_cons, if_pos rfl, Option.some.injEq] at hb
          subst hb
          rw [mem_files_nodeAddFile] at hx
          rcases hx with hx | rfl
          · exact Or.inl ⟨c, by rw [childNode?_cons, if_pos rfl], hx⟩
          · exact Or.inr ⟨rfl, rfl⟩
        · rintro (⟨b, hb, hx⟩ | ⟨hke, rfl⟩)
          · rw [childNode?_cons, if_pos rfl, Option.some.injEq] at hb
            refine ⟨nodeAddFile c y, by rw [childNode?_cons, if_pos rfl], ?_⟩
            rw [mem_files_nodeAddFile]
            rw [← hb] at hx
            exact Or.inl hx
          · refine ⟨nodeAddFile c x, by rw [childNode?_cons, if_pos rfl], ?_⟩
            rw [mem_files_nodeAddFile]
            exact Or.inr rfl
      · constructor
        · rintro ⟨b, hb, hx⟩
          rw [childNode?_cons, if_neg hk] at hb
          exact Or.inl ⟨b, by rw [childNode?_cons, if_neg hk]; exact hb, hx⟩
        · rintro (⟨b, hb, hx⟩ | ⟨rfl, rfl⟩)
          · rw [childNode?_cons, if_neg hk] at hb
            exact ⟨b, by rw [childNode?_cons, if_neg hk]; exact hb, hx⟩
          · exact absurd rfl hk
    · rw [if_neg hk0]
      by_cases hk : k0 = k
      · subst hk
        constructor
        · rintro ⟨b, hb, hx⟩
          rw [childNode?_cons, if_pos rfl, Option.some.injEq] at hb
          subst hb
          exact Or.inl ⟨c, by rw [childNode?_cons, if_pos rfl], hx⟩
        · rintro (⟨b, hb, hx⟩ | ⟨rfl, rfl⟩)
          · rw [childNode?_cons, if_pos rfl, Option.some.injEq] at hb
            rw [← hb] at hx
            exact ⟨c, by rw [childNode?_cons, if_pos rfl], hx⟩
          · exact absurd rfl hk0
      · have hih := ih k x
        constructor
        · rintro ⟨b, hb, hx⟩
          rw [childNode?_cons, if_neg hk] at hb
          rcases hih.mp ⟨b, hb, hx⟩ with ⟨b2, hb2, hx2⟩ | hr
          · exact Or.inl ⟨b2, by rw [childNode?_cons, if_neg hk]; exact hb2, hx2⟩
          · exact Or.inr hr
        · rintro (⟨b, hb, hx⟩ | hr)
          · rw [childNode?_cons, if_neg hk] at hb
            rcases hih.mpr (Or.inl ⟨b, hb, hx⟩) with ⟨b2, hb2, hx2⟩
            exact ⟨b2, by rw [childNode?_cons, if_neg hk]; exact hb2, hx2⟩
          · rcases hih.mpr (Or.inr hr) with ⟨b2, hb2, hx2⟩
            exact ⟨b2, by rw [childNode?_cons, if_neg hk]; exact hb2, hx2⟩

/-- Bucket and remaining-list membership through the split loop: a file is
in a bucket after the loop iff it was already there or it is a processed
file whose truthy first match strips to the bucket's key, and it is on the
remaining list iff it was already there or it is a processed file with no
truthy match. -/
theorem memBucket_splitGo (ft : Str → List Str) (lt : List Str) (li : Int) :
    ∀ (todo : List Str) (cs : List (Str × GroupNode)) (rem : List Str) (k x : Str),
      (memBucket (splitGo ft lt li todo cs rem).1 k x ↔
        (memBucket cs k x ∨ (x ∈ todo ∧
          ∃ w, tagMatchesAny (ft x) lt = some w ∧ w ≠ [] ∧ stripHash w = k))) ∧
      (x ∈ (splitGo ft lt li todo cs rem).2 ↔
        (x ∈ rem ∨ (x ∈ todo ∧ optTruthy (tagMatchesAny (ft x) lt) = false))) := by
  intro todo
  induction todo with
  | nil =>
    intro cs rem k x
    rw [splitGo_nil]
    constructor
    · constructor
      · exact fun h => Or.inl h
      · rintro (h | ⟨hx, _⟩)
        · exact h
        · exact absurd hx (List.not_mem_nil x)
    · constructor
      · exact fun h => Or.inl h
      · rintro (h | ⟨hx, _⟩)
        · exact h
        · exact absurd hx (List.not_mem_nil x)
  | cons f todo ih =>
    intro cs rem k x
    cases hm : tagMatchesAny (ft f) lt with
    | some w =>
      have hstep : splitGo ft lt li (f :: todo) cs rem =
          if w = [] then splitGo ft lt li todo cs (rem ++ [f])
          else splitGo ft lt li todo (bucketAdd cs (stripHash w) li f) rem := by
        rw [splitGo_cons, hm]
      by_cases hw : w = []
      · rw [if_pos hw] at hstep
        subst hw
        rw [hstep]
        obtain ⟨ha, hb⟩ := ih cs (rem ++ [f]) k x
        constructor
        · rw [ha]
          constructor
          · rintro (h | ⟨hx, hex⟩)
            · exact Or.inl h
            · exact Or.inr ⟨List.mem_cons_of_mem _ hx, hex⟩
          · rintro (h | ⟨hx, hex⟩)
            · exact Or.inl h
            · rcases List.mem_cons.mp hx with rfl | hx
              · obtain ⟨w2, hw2, hwne, _⟩ := hex
                rw [hm, Option.some.injEq] at hw2
                exact absurd hw2.symm hwne
              · exact Or.inr ⟨hx, hex⟩
        · rw [hb]
          constructor
          · rintro (h | ⟨hx, hnt⟩)
            · rcases List.mem_append.mp h with h1 | h1
              · exact Or.inl h1
              · rw [List.mem_singleton] at h1
                subst h1
                refine Or.inr ⟨List.mem_cons_self _ _, ?_⟩
                rw [hm]
                rfl
            · exact Or.inr ⟨List.mem_cons_of_mem _ hx, hnt⟩
          · rintro (h | ⟨hx, hnt⟩)
            · exact Or.inl (List.mem_append.mpr (Or.inl h))
            · rcases List.mem_cons.mp hx with rfl | hx
              · exact Or.inl (List.mem_append.mpr (Or.inr (List.mem_singleton.mpr rfl)))
              · exact Or.inr ⟨hx, hnt⟩
      · rw [if_neg hw] at hstep
        rw [hstep]
        obtain ⟨ha, hb⟩ := ih (bucketAdd cs (stripHash w) li f) rem k x
        constructor
        · rw [ha, memBucket_bucketAdd (stripHash w) li f cs k x]
          constructor
          · rintro ((h | ⟨hkw, rfl⟩) | ⟨hx, hex⟩)
            · exact Or.inl h
            · exact Or.inr ⟨List.mem_cons_self _ _, w, hm, hw, hkw.symm⟩
            · exact Or.inr ⟨List.mem_cons_of_mem _ hx, hex⟩
          · rintro (h | ⟨hx, hex⟩)
            · exact Or.inl (Or.inl h)
            · rcases List.mem_cons.mp hx with rfl | hx
              · obtain ⟨w2, hw2, hwne, hwk⟩ := hex
                rw [hm, Option.some.injEq] at hw2
                subst hw2
                exact Or.inl (Or.inr ⟨hwk.symm, rfl⟩)
              · exact Or.inr ⟨hx, hex⟩
        · rw [hb]
          constructor
          · rintro (h | ⟨hx, hnt⟩)
            · exact Or.inl h
            · exact Or.inr ⟨List.mem_cons_of_mem _ hx, hnt⟩
          · rintro (h | ⟨hx, hnt⟩)
            · exact Or.inl h
            · rcases List.mem_cons.mp hx with rfl | hx
              · rw [hm] at hnt
                have h2 : (!w.isEmpty) = false := hnt
                have h3 : w.isEmpty = true := by
                  cases hwe : w.isEmpty
                  · rw [hwe] at h2
                    simp at h2
                  · rfl
                rw [List.isEmpty_iff] at h3
                exact absurd h3 hw
              · exact Or.inr ⟨hx, hnt⟩
    | none =>
      have hstep : splitGo ft lt li (f :: todo) cs rem =
          splitGo ft lt li todo cs (rem ++ [f]) := by
        rw [splitGo_cons, hm]
      rw [hstep]
      obtain ⟨ha, hb⟩ := ih cs (rem ++ [f]) k x
      constructor
      · rw [ha]
        constructor
        · rintro (h | ⟨hx, hex⟩)
          · exact Or.inl h
          · exact Or.inr ⟨List.mem_cons_of_mem _ hx, hex⟩
        · rintro (h | ⟨hx, hex⟩)
          · exact Or.inl h
          · rcases List.mem_cons.mp hx with rfl | hx
            · obtain ⟨w2, hw2, _, _⟩ := hex
              rw [hm] at hw2
              exact absurd hw2 (Option.noConfusion)
            · exact Or.inr ⟨hx, hex⟩
      · rw [hb]
        constructor
        · rintro (h | ⟨hx, hnt⟩)
          · rcases List.mem_append.mp h with h1 | h1
            · exact Or.inl h1
            · rw [List.mem_singleton] at h1
              subst h1
              refine Or.inr ⟨List.mem_cons_self _ _, ?_⟩
              rw [hm]
              rfl
          · exact Or.inr ⟨List.mem_cons_of_mem _ hx, hnt⟩
        · rintro (h | ⟨hx, hnt⟩)
          · exact Or.inl (List.mem_append.mpr (Or.inl h))
          · rcases List.mem_cons.mp hx with rfl | hx
            · exact Or.inl (List.mem_append.mpr (Or.inr (List.mem_singleton.mpr rfl)))
            · exact Or.inr ⟨hx, hnt⟩

/-- Bucket membership after the catch-all fold. -/
theorem memBucket_othersFold (li : Int) :
    ∀ (rem : List Str) (cs : List (Str × GroupNode)) (k x : Str),
      memBucket (rem.foldl (fun acc f => bucketAdd acc othersLabel li f) cs) k x ↔
        (memBucket cs k x ∨ (k = othersLabel ∧ x ∈ rem)) := by
  intro rem
  induction rem with
  | nil =>
    intro cs k x
    constructor
    · exact fun h => Or.inl h
    · rintro (h | ⟨_, hx⟩)
      · exact h
      · exact absurd hx (List.not_mem_nil x)
  | cons f rem ih =>
    intro cs k x
    rw [List.foldl_cons, ih (bucketAdd cs othersLabel li f) k x,
      memBucket_bucketAdd othersLabel li f cs k x]
    constructor
    · rintro ((h | ⟨rfl, rfl⟩) | ⟨rfl, hx⟩)
      · exact Or.inl h
      · exact Or.inr ⟨rfl, List.mem_cons_self _ _⟩
      · exact Or.inr ⟨rfl, List.mem_cons_of_mem _ hx⟩
    · rintro (h | ⟨rfl, hx⟩)
      · exact Or.inl (Or.inl h)
      · rcases List.mem_cons.mp hx with rfl | hx
        · exact Or.inl (Or.inr ⟨rfl, rfl⟩)
        · exact Or.inr ⟨rfl, hx⟩

/-- Bucket membership after finishSplit. -/
theorem memBucket_finishSplit (li : Int) (cs : List (Str × GroupNode)) (rem : List Str)
    (k x : Str) :
    memBucket (finishSplit li cs rem) k x ↔
      (memBucket cs k x ∨ (k = othersLabel ∧ x ∈ rem)) := by
  unfold finishSplit
  by_cases hr : rem = []
  · subst hr
    rw [if_pos rfl]
    constructor
    · exact fun h => Or.inl h
    · rintro (h | ⟨_, hx⟩)
      · exact h
      · exact absurd hx (List.not_mem_nil x)
  · rw [if_neg hr]
    exact memBucket_othersFold li rem cs k x

/-- Characterization of the buckets produced by applying one level to a
fresh node holding files: a file lands in the bucket of the stripped form
of its truthy first match, and in the catch-all bucket iff it has no
truthy match. -/
theorem propagateLevel_fresh_buckets (ft : Str → List Str) (lt : List Str) (li : Int)
    (n : Str) (lv : Int) (fs : List Str) (hfs : fs ≠ []) (k x : Str) :
    memBucket (propagateLevel ft lt li (GroupNode.mk n lv [] fs)).children k x ↔
      ((x ∈ fs ∧ ∃ w, tagMatchesAny (ft x) lt = some w ∧ w ≠ [] ∧ stripHash w = k) ∨
       (k = othersLabel ∧ x ∈ fs ∧ optTruthy (tagMatchesAny (ft x) lt) = false)) := by
  have hprop : propagateLevel ft lt li (GroupNode.mk n lv [] fs) =
      GroupNode.mk n lv
        (finishSplit li (splitGo ft lt li fs [] []).1 (splitGo ft lt li fs [] []).2) [] := by
    unfold propagateLevel
    rw [if_neg hfs]
  rw [hprop]
  show memBucket (finishSplit li (splitGo ft lt li fs [] []).1 (splitGo ft lt li fs [] []).2) k x
    ↔ _
  rw [memBucket_finishSplit]
  obtain ⟨ha, hb⟩ := memBucket_splitGo ft lt li fs [] [] k x
  rw [ha, hb]
  constructor
  · rintro ((h | h) | ⟨rfl, (h | h)⟩)
    · exact absurd h (memBucket_nil k x)
    · exact Or.inl h
    · exact absurd h (List.not_mem_nil x)
    · exact Or.inr ⟨rfl, h⟩
  · rintro (h | ⟨rfl, h⟩)
    · exact Or.inl (Or.inr h)
    · exact Or.inr ⟨rfl, Or.inr h⟩

/-- C8: when a level is applied to a node's file set, a file whose tag set
matches some pattern of the level is placed in exactly one bucket, the one
labeled by the display form of the first matching pattern in pattern-list
order (tagMatchesAny returns exactly that first match). -/
theorem firstMatch_wins (ft : Str → List Str) (lt : List Str) (li : Int)
    (n : Str) (lv : Int) (fs : List Str) (f w : Str)
    (hlt : ∀ p ∈ lt, p ≠ ([] : Str))
    (hfs : fs ≠ []) (hf : f ∈ fs)
    (hm : tagMatchesAny (ft f) lt = some w) :
    (∃ l1 l2, lt = l1 ++ w :: l2 ∧
      (∃ t ∈ ft f, t = w ∨ jsStartsWith t (w ++ String.toList ("/")) = true) ∧
      (∀ p ∈ l1, ¬ ∃ t ∈ ft f, t = p ∨ jsStartsWith t (p ++ String.toList ("/")) = true)) ∧
    memBucket (propagateLevel ft lt li (GroupNode.mk n lv [] fs)).children (stripHash w) f ∧
    (∀ k, k ≠ stripHash w →
      ¬ memBucket (propagateLevel ft lt li (GroupNode.mk n lv [] fs)).children k f) := by
  have hw : w ≠ [] := hlt w (List.mem_of_find?_eq_some hm)
  have hfirst := List.find?_eq_some.mp hm
  obtain ⟨hpw, l1, l2, hsplit, hearlier⟩ := hfirst
  refine ⟨⟨l1, l2, hsplit, ?_, ?_⟩, ?_, ?_⟩
  · rw [List.any_eq_true] at hpw
    obtain ⟨t, ht, hmatch⟩ := hpw
    rw [Bool.or_eq_true, beq_iff_eq] at hmatch
    exact ⟨t, ht, hmatch⟩
  · intro p hp hcontra
    have := hearlier p hp
    rw [Bool.not_eq_true', List.any_eq_false] at this
    obtain ⟨t, ht, hmatch⟩ := hcontra
    apply this t ht
    rw [Bool.or_eq_true]
    rcases hmatch with rfl | hpre
    · exact Or.inl (beq_self_eq_true t)
    · exact Or.inr hpre
  · rw [propagateLevel_fresh_buckets ft lt li n lv fs hfs (stripHash w) f]
    exact Or.inl ⟨hf, w, hm, hw, rfl⟩
  · intro k hk hcontra
    rw [propagateLevel_fresh_buckets ft lt li n lv fs hfs k f] at hcontra
    rcases hcontra with ⟨_, w2, hw2, _, hwk⟩ | ⟨_, _, hnt⟩
    · rw [hm, Option.some.injEq] at hw2
      subst hw2
      exact hk hwk.symm
    · rw [hm] at hnt
      have h2 : (!w.isEmpty) = false := hnt
      have h3 : w.isEmpty = true := by
        cases hwe : w.isEmpty
        · rw [hwe] at h2
          simp at h2
        · rfl
      rw [List.isEmpty_iff] at h3
      exact absurd h3 hw

/-- Witness for firstMatch_wins: with patterns ["#b", "#a"] and a file
tagged with both, the file lands in the bucket of the first pattern "#b". -/
theorem firstMatch_wins_witness :
    memBucket (propagateLevel multiTags [String.toList ("#b"), String.toList ("#a")] 0
        (GroupNode.mk rootLabel (-1) [] [String.toList ("m.md")])).children
      (stripHash (String.toList ("#b"))) (String.toList ("m.md")) :=
  (firstMatch_wins multiTags [String.toList ("#b"), String.toList ("#a")] 0
    rootLabel (-1) [String.toList ("m.md")] (String.toList ("m.md")) (String.toList ("#b"))
    (by decide) (by decide) (by decide) (by decide)).2.1

/-- C4 counterexample: with level patterns ["#Others"], the bucket of the
pattern #Others (display form "Others") and the synthesized catch-all
bucket are one and the same child of the parent "a": it holds both f2,
which matched the pattern, and f1, which matched no pattern, so the fixed
label is not distinct from the pattern's display label and the two file
sets merge. -/
theorem othersMerge_claim_counterexample :
    ((childNode? mergeTree.children (String.toList ("a"))).map
        (fun b => b.children.map (fun p => p.1))) = some [othersLabel] ∧
    ((childNode? mergeTree.children (String.toList ("a"))).map
        (fun b => (childNode? b.children othersLabel).map GroupNode.files))
      = some (some [String.toList ("f2"), String.toList ("f1")]) ∧
    tagMatchesAny (mergeTags (String.toList ("f2"))) [String.toList ("#Others")]
      = some (String.toList ("#Others")) ∧
    stripHash (String.toList ("#Others")) = othersLabel ∧
    tagMatchesAny (mergeTags (String.toList ("f1"))) [String.toList ("#Others")] = none := by
  refine ⟨by decide, by decide, by decide, by decide, by decide⟩

/-- C4 amended: the synthesized catch-all bucket carries the fixed label
"Others"; whenever no pattern of the level has display form "Others", the
catch-all bucket of a split holds exactly the files with no truthy match,
so it never shares a label or merges with a pattern-derived bucket; when a
pattern's display form is "Others" the two buckets coincide and merge. -/
theorem othersBucket_exact (ft : Str → List Str) (lt : List Str) (li : Int)
    (n : Str) (lv : Int) (fs : List Str) (hfs : fs ≠ [])
    (hno : ∀ p ∈ lt, stripHash p ≠ othersLabel) (x : Str) :
    memBucket (propagateLevel ft lt li (GroupNode.mk n lv [] fs)).children othersLabel x ↔
      (x ∈ fs ∧ optTruthy (tagMatchesAny (ft x) lt) = false) := by
  rw [propagateLevel_fresh_buckets ft lt li n lv fs hfs othersLabel x]
  constructor
  · rintro (⟨hx, w, hw, hwne, hwk⟩ | ⟨_, hx, hnt⟩)
    · have hwin : w ∈ lt := List.mem_of_find?_eq_some hw
      exact absurd hwk (hno w hwin)
    · exact ⟨hx, hnt⟩
  · rintro ⟨hx, hnt⟩
    exact Or.inr ⟨rfl, hx, hnt⟩

/-- Witness for othersBucket_exact: a file with no matching tag lands in
the catch-all bucket. -/
theorem othersBucket_exact_witness :
    memBucket (propagateLevel noTags [String.toList ("#x")] 0
        (GroupNode.mk rootLabel (-1) [] [String.toList ("w.md")])).children
      othersLabel (String.toList ("w.md")) :=
  (othersBucket_exact noTags [String.toList ("#x")] 0 rootLabel (-1)
    [String.toList ("w.md")] (by decide) (by decide) (String.toList ("w.md"))).mpr
    ⟨by decide, by decide⟩
